import Mathlib

/-!
Verification of the `m2tw-tools` PACK archive reader against its
natural-language specification.

The development shallowly embeds the C++ sources:

* `src/pack/src/util.cpp`  — the `BinaryReader` byte cursor;
* `src/pack/src/pack.cpp`  — `Pack::open`, the archive parser;
* `src/pack/src/main.cpp`  — `load_pack` (structurally identical parser),
  `cmd_list` and the extraction loop of `cmd_extract`.

Machine integers are modelled as `Nat`, with `% 2 ^ 32` (resp. `% 256`)
inserted exactly where 32-bit (resp. 8-bit) wraparound can occur in the
source.  Places where the C++ performs an out-of-bounds access (undefined
behaviour) are modelled by explicit error values, documented at each
definition.
-/

/-! ### The source `BinaryReader` (util.cpp)

The C++ `BinaryReader` stores three raw pointers `m_begin`, `m_end`,
`m_head` into process memory and its `get_u8` dereferences `m_head`
unconditionally — there is no comparison against `m_end` anywhere in
`util.cpp`.  We model this faithfully: process memory is a total function
`mem : Nat → Nat` (one byte per address, reads truncated to 8 bits as by
the `uint8_t` load), and the pointers are addresses.  Reads therefore
always succeed, exactly as in the source, even past `mEnd`. -/

structure SrcReader where
  mem : Nat → Nat
  mBegin : Nat
  mEnd : Nat
  mHead : Nat

/-- Embeds `BinaryReader::get_u8`: `const uint8_t result = *m_head; ++m_head;`.
No bounds check appears in the source. -/
def SrcReader.get_u8 (r : SrcReader) : Nat × SrcReader :=
  (r.mem r.mHead % 256, ⟨r.mem, r.mBegin, r.mEnd, r.mHead + 1⟩)

/-- Embeds `BinaryReader::get_u32`: four `get_u8` calls combined with
`result |= byte << shift` for shifts 0, 8, 16, 24. -/
def SrcReader.get_u32 (r : SrcReader) : Nat × SrcReader :=
  let p0 := r.get_u8
  let p1 := p0.2.get_u8
  let p2 := p1.2.get_u8
  let p3 := p2.2.get_u8
  (p0.1 ||| p1.1 <<< 8 ||| p2.1 <<< 16 ||| p3.1 <<< 24, p3.2)

/-- Embeds `BinaryReader::pos()`: `m_head - m_begin` (pointer difference). -/
def SrcReader.pos (r : SrcReader) : Nat :=
  r.mHead - r.mBegin

/-- Bitwise-or of a low byte-lane with a disjoint shifted value is addition:
the arithmetic content of C's `result |= byte << k` accumulation. -/
theorem lor_shiftLeft_eq_add {a : Nat} (b : Nat) {k : Nat} (h : a < 2 ^ k) :
    a ||| b <<< k = 2 ^ k * b + a := by
  apply Nat.eq_of_testBit_eq
  intro j
  rw [Nat.testBit_or, Nat.testBit_shiftLeft, Nat.testBit_mul_pow_two_add b h j]
  by_cases hj : j < k
  · have hne : ¬ (j ≥ k) := by omega
    simp [hj, hne]
  · have hge : j ≥ k := by omega
    have ha : a < 2 ^ j :=
      lt_of_lt_of_le h (Nat.pow_le_pow_right (by omega) (by omega))
    simp [hj, hge, Nat.testBit_lt_two_pow ha]

/-! ### The byte-cursor over a concrete buffer (parser-side reader)

`Pack::open` (pack.cpp) drives a `BinaryReader` over the memory-mapped
archive bytes.  For the parser we model the buffer as the archive's byte
list and a position.  The source performs **no** bounds checks, so every
place where a read would leave the buffer is undefined behaviour in the
source; the model marks those points with `none` / a dedicated error
value (they are exactly the positions where the C++ dereferences memory
outside the mapped file). -/

/-- Byte of `data` at index `i`, as read through a `uint8_t` load.
`none` marks an out-of-bounds access (undefined in the source). -/
def byteAt (data : List Nat) (i : Nat) : Option Nat :=
  (data[i]?).map (· % 256)

/-- One `get_u8` step of the parser's cursor: value and new position. -/
def readU8 (data : List Nat) (pos : Nat) : Option (Nat × Nat) :=
  (byteAt data pos).map (fun b => (b, pos + 1))

/-- One `get_u32` step: four consecutive `get_u8`, combined LSB first
(`result |= byte << shift`), advancing the position by 4. -/
def readU32 (data : List Nat) (pos : Nat) : Option (Nat × Nat) :=
  match readU8 data pos with
  | none => none
  | some (b0, p0) =>
    match readU8 data p0 with
    | none => none
    | some (b1, p1) =>
      match readU8 data p1 with
      | none => none
      | some (b2, p2) =>
        match readU8 data p2 with
        | none => none
        | some (b3, p3) =>
          some (b0 ||| b1 <<< 8 ||| b2 <<< 16 ||| b3 <<< 24, p3)

/-- Embeds `BinaryReader::get_c_str`: accumulate bytes until a zero byte,
consume the terminator.  The source loop has no end-of-buffer check, so
running off the buffer (no terminator before the end) is undefined there;
the model returns `none` at that point.  `fuel` bounds the loop; the
wrapper always supplies enough. -/
def getCStrAux (data : List Nat) : Nat → Nat → Option (List Nat × Nat)
  | 0, _ => none
  | fuel + 1, pos =>
    match byteAt data pos with
    | none => none
    | some b =>
      if b = 0 then some ([], pos + 1)
      else (getCStrAux data fuel (pos + 1)).map (fun s => (b :: s.1, s.2))

/-- `get_c_str` from position `pos`; fuel `data.length + 1` suffices since
each iteration advances the position and in-bounds positions are below
`data.length`. -/
def getCStr (data : List Nat) (pos : Nat) : Option (List Nat × Nat) :=
  getCStrAux data (data.length + 1) pos

/-- Embeds `BinaryReader::align`: `while (pos() % boundary != 0) skip(1);`.
For a positive boundary `n` at most `n - 1` iterations run, so fuel `n`
suffices; with boundary 0 the source loop's `pos % 0` is undefined in C++
(the model then leaves the position unchanged). -/
def alignPos : Nat → Nat → Nat → Nat
  | 0, pos, _ => pos
  | fuel + 1, pos, n => if pos % n ≠ 0 then alignPos fuel (pos + 1) n else pos

/-- `align n` applied at position `pos`. -/
def alignAt (pos n : Nat) : Nat :=
  alignPos n pos n

/-! ### The archive data model (pack.cpp)

`Chunk` mirrors the C++ `Chunk` view: a byte offset into the mapped
archive (the pointer `mmap->begin() + chunk_offset`, kept as the 32-bit
offset the source computes) together with its on-disk length.  `FileRec`
mirrors `File`: path bytes, the `size_on_disk` field (the uncompressed
total returned by `File::size()`), and the chunk list.  `PackFiles`
mirrors the `Pack` result, keeping what the claims are about: the ordered
file list. -/

structure Chunk where
  offset : Nat
  size : Nat
  deriving DecidableEq, Repr

structure FileRec where
  path : List Nat
  sizeOnDisk : Nat
  chunks : List Chunk
  deriving DecidableEq, Repr

structure PackFiles where
  files : List FileRec
  deriving DecidableEq, Repr

/-- Errors of the modelled parser.  `badMagic` / `badVersion` are the two
`throw Error(...)` sites of `Pack::open`; `truncated` marks a header read
that would leave the mapped buffer, and `chunkOverrun` marks the chunk
loop consulting `chunk_sizes[chunk_index]` with `chunk_index` at or past
the end of the table — both undefined behaviour in the source.
`loopFuel` is a model artifact proven unreachable
(`buildChunksAux_ne_loopFuel`). -/
inductive OpenError where
  | truncated : OpenError
  | badMagic : OpenError
  | badVersion : Nat → OpenError
  | chunkOverrun : OpenError
  | loopFuel : OpenError
  deriving DecidableEq, Repr

/-- Embeds the chunk-reconstruction loop of `Pack::open` (pack.cpp lines
114–122, identical to `load_pack`, main.cpp lines 190–200):

    auto chunk_index = first_chunk_index;
    auto chunk_offset = first_chunk_offset;
    while (chunk_offset - first_chunk_offset < size_in_pack) {
        auto chunk_size = chunk_sizes[chunk_index];
        chunks.emplace_back(..., chunk_offset, chunk_size);
        chunk_index += 1;
        chunk_offset += chunk_size;
    }

All loop variables are `uint32_t`.  The model carries the accumulated
chunk length `acc` (a plain `Nat`); since `chunk_offset` starts at
`dataOff` and grows by the chunk sizes modulo `2 ^ 32`, the source's
`chunk_offset - first_chunk_offset` equals `acc % 2 ^ 32` and the emitted
offset equals `(dataOff + acc) % 2 ^ 32`.  A lookup `chunk_sizes[i]` with
`i` outside the table is undefined in the source and yields
`.error .chunkOverrun` here.  Each iteration increases the index, so fuel
`chunkSizes.length + 1` is always sufficient (`buildChunksAux_ne_loopFuel`). -/
def buildChunksAux (chunkSizes : List Nat) (dataOff sizeInPack : Nat) :
    Nat → Nat → Nat → Except OpenError (List Chunk)
  | 0, _, _ => .error .loopFuel
  | fuel + 1, idx, acc =>
    if acc % 2 ^ 32 < sizeInPack then
      match chunkSizes[idx]? with
      | none => .error .chunkOverrun
      | some sz =>
        match buildChunksAux chunkSizes dataOff sizeInPack fuel (idx + 1) (acc + sz) with
        | .error e => .error e
        | .ok l => .ok (⟨(dataOff + acc) % 2 ^ 32, sz⟩ :: l)
    else
      .ok []

/-- The chunk loop for one file record, started as in the source with the
record's data offset, first-chunk index and size-in-pack. -/
def buildChunks (chunkSizes : List Nat) (dataOff sizeInPack firstIdx : Nat) :
    Except OpenError (List Chunk) :=
  buildChunksAux chunkSizes dataOff sizeInPack (chunkSizes.length + 1) firstIdx 0

/-- Reads `count` consecutive `u32` values (the `file_offsets` and
`chunk_sizes` table loops of `Pack::open`). -/
def readTable (data : List Nat) : Nat → Nat → Option (List Nat × Nat)
  | pos, 0 => some ([], pos)
  | pos, count + 1 =>
    match readU32 data pos with
    | none => none
    | some (v, p) =>
      match readTable data p count with
      | none => none
      | some (t, q) => some (v :: t, q)

/-- Embeds the per-file-record loop of `Pack::open` (pack.cpp lines
106–125): for each record read `first_chunk_offset`, `first_chunk_index`,
`size_on_disk`, `size_in_pack` (all `u32`), the zero-terminated path,
align the cursor to 4, run the chunk loop, and emit the `File`. -/
def parseRecords (data : List Nat) (chunkSizes : List Nat) :
    Nat → Nat → Except OpenError (List FileRec × Nat)
  | pos, 0 => .ok ([], pos)
  | pos, count + 1 =>
    match readU32 data pos with
    | none => .error .truncated
    | some (dataOff, p1) =>
      match readU32 data p1 with
      | none => .error .truncated
      | some (firstIdx, p2) =>
        match readU32 data p2 with
        | none => .error .truncated
        | some (sizeOnDisk, p3) =>
          match readU32 data p3 with
          | none => .error .truncated
          | some (sizeInPack, p4) =>
            match getCStr data p4 with
            | none => .error .truncated
            | some (path, p5) =>
              let p6 := alignAt p5 4
              match buildChunks chunkSizes dataOff sizeInPack firstIdx with
              | .error e => .error e
              | .ok chunks =>
                match parseRecords data chunkSizes p6 count with
                | .error e => .error e
                | .ok (rest, pend) =>
                  .ok (⟨path, sizeOnDisk, chunks⟩ :: rest, pend)

/-- The expected magic constant of `Pack::open`: `0x4b434150` ("PACK"). -/
def EXPECTED_MAGIC : Nat := 0x4b434150

/-- The expected version constant of `Pack::open`: `0x30000`. -/
def EXPECTED_VERSION : Nat := 0x30000

/-- Embeds `Pack::open` (pack.cpp lines 65–128): magic check, version
check, the three header counters, the `file_offsets` table (read and
unused, as in the source), the `chunk_sizes` table, and the file-record
loop. -/
def pack_open (data : List Nat) : Except OpenError PackFiles :=
  match readU32 data 0 with
  | none => .error .truncated
  | some (magic, p1) =>
    if magic ≠ EXPECTED_MAGIC then .error .badMagic
    else
      match readU32 data p1 with
      | none => .error .truncated
      | some (version, p2) =>
        if version ≠ EXPECTED_VERSION then .error (.badVersion version)
        else
          match readU32 data p2 with
          | none => .error .truncated
          | some (numFiles, p3) =>
            match readU32 data p3 with
            | none => .error .truncated
            | some (_fileTableSize, p4) =>
              match readU32 data p4 with
              | none => .error .truncated
              | some (numChunks, p5) =>
                match readTable data p5 numFiles with
                | none => .error .truncated
                | some (_fileOffsets, p6) =>
                  match readTable data p6 numChunks with
                  | none => .error .truncated
                  | some (chunkSizes, p7) =>
                    match parseRecords data chunkSizes p7 numFiles with
                    | .error e => .error e
                    | .ok (files, _) => .ok ⟨files⟩

/-! ### Helpers for stating header-level properties -/

/-- The 32-bit little-endian word stored at byte index `i` of the archive
(LSB first), the quantity the magic/version checks of `Pack::open` are
about. -/
def word32At (data : List Nat) (i : Nat) : Nat :=
  data.getD i 0 % 256 + 256 * (data.getD (i + 1) 0 % 256)
    + 65536 * (data.getD (i + 2) 0 % 256) + 16777216 * (data.getD (i + 3) 0 % 256)

/-- The offending version value reported by `Pack::open`, if the result is
the `unexpected pack version` failure. -/
def badVersionOf : Except OpenError PackFiles → Option Nat
  | .error (.badVersion v) => some v
  | _ => none

/-! ### Extraction (main.cpp, `cmd_extract`)

The per-file loop of `cmd_extract` (main.cpp lines 269–293) walks the
file's chunks in order keeping `bytes_out`, the number of output bytes
produced so far.  LZO decompression (the external `lzokay` library) is
modelled as an oracle `lzo : List Nat → Option (List Nat)` mapping a
chunk's on-disk bytes to its decompressed bytes (`none` = decompression
failure, the fatal `LZO decompression failed` error). -/

/-- The fixed scratch-buffer bound of `cmd_extract`:
`static constexpr size_t LZO_BUFFER_SIZE = 65536`. -/
def LZO_BUFFER_SIZE : Nat := 65536

/-- Embeds the decision of main.cpp lines 273–274:

    const bool chunk_is_compressed =
        (chunk.size < decompression_buffer.size()) &&
        (bytes_out + chunk.size != file.size_on_disk);
-/
def chunk_is_compressed (chunkSize bytesOut sizeOnDisk : Nat) : Bool :=
  decide (chunkSize < LZO_BUFFER_SIZE) && decide (bytesOut + chunkSize ≠ sizeOnDisk)

/-- The on-disk bytes of a chunk: `chunk.size` bytes of the mapped archive
starting at `chunk.offset` (`mmap->begin() + chunk.offset`). -/
def chunkData (arch : List Nat) (c : Chunk) : List Nat :=
  (arch.drop c.offset).take c.size

/-- Embeds the chunk loop of `cmd_extract` for one file: each chunk is
either decompressed through the oracle (compressed path, advancing
`bytes_out` by the decompressed length) or copied verbatim (raw path,
advancing `bytes_out` by the chunk's on-disk size); the produced bytes
are concatenated in chunk order. -/
def extractFileAux (lzo : List Nat → Option (List Nat)) (arch : List Nat)
    (sizeOnDisk : Nat) : List Chunk → Nat → Option (List Nat)
  | [], _ => some []
  | c :: cs, bytesOut =>
    if chunk_is_compressed c.size bytesOut sizeOnDisk then
      match lzo (chunkData arch c) with
      | none => none
      | some d =>
        match extractFileAux lzo arch sizeOnDisk cs (bytesOut + d.length) with
        | none => none
        | some rest => some (d ++ rest)
    else
      match extractFileAux lzo arch sizeOnDisk cs (bytesOut + c.size) with
      | none => none
      | some rest => some (chunkData arch c ++ rest)

/-- Extraction of one file record: the chunk loop started with
`bytes_out = 0`. -/
def extractFile (lzo : List Nat → Option (List Nat)) (arch : List Nat)
    (f : FileRec) : Option (List Nat) :=
  extractFileAux lzo arch f.sizeOnDisk f.chunks 0

/-! ### Worker partitioning (main.cpp, `cmd_extract`)

Worker `id` runs `for (size_t j = id; j < num_files_in_pack; j += num_threads)`
(main.cpp lines 238–244).  The loop below lists the file indices worker
`id` visits, in visit order; for a positive thread count each iteration
advances `j` by at least one, so fuel `numFiles + 1` always suffices. -/

def workerIndicesAux (numThreads numFiles : Nat) : Nat → Nat → List Nat
  | 0, _ => []
  | fuel + 1, j =>
    if j < numFiles then j :: workerIndicesAux numThreads numFiles fuel (j + numThreads)
    else []

/-- The file indices processed by worker `k` out of `numThreads`, over a
pack with `numFiles` files. -/
def workerIndices (numThreads numFiles k : Nat) : List Nat :=
  workerIndicesAux numThreads numFiles (numFiles + 1) k

/-! ### Listing (main.cpp, `cmd_list`)

`cmd_list` loads each archive and runs
`for (file : pack.files) std::cout << file.path << "\n";`.
An archive is modelled by its name together with its files' relative
paths (the fields of the loaded `Pack` that the command touches). -/

/-- The inner loop of `cmd_list`: one `<path>\n` line per file. -/
def listFileLines : List String → String
  | [] => ""
  | p :: ps => p ++ "\n" ++ listFileLines ps

/-- The full output of `cmd_list` over the given (name, file paths)
archives, in order.  Note the archive name is never used by the source
loop. -/
def cmdListOutput : List (String × List String) → String
  | [] => ""
  | pk :: pks => listFileLines pk.2 ++ cmdListOutput pks

/-! ### Valid synthetic archives (modelled from the spec)

The repository contains no archive writer and the LZO codec is an
external library, so the notions of a *valid synthetic archive* (spec §8)
and of a chunk's *decompressed size* (spec §3, §4.3) are modelled from
the spec here.  `encodePack` lays bytes out exactly per the spec §6
format table (which the parser of pack.cpp consumes); `dsizes` assigns
each entry of the global chunk table its decompressed length, and a
record is valid when its in-pack size is exactly the sum of its chunk
range, as spec §4.2 requires of well-formed archives. -/

/-- Modelled from the spec: little-endian `u32` serialization (§6: the
archive format is binary, little-endian). -/
def encodeU32 (n : Nat) : List Nat :=
  [n % 256, n / 256 % 256, n / 65536 % 256, n / 16777216 % 256]

/-- Modelled from the spec: one file record of the §6 layout, before
padding (`data_offset, first_chunk_index, uncompressed_size,
on_disk_size, path, zero terminator`). -/
structure FileDescR where
  dataOff : Nat
  firstChunk : Nat
  sizeOnDisk : Nat
  sizeInPack : Nat
  path : List Nat

/-- Modelled from the spec: the contents of an archive to be serialized
(§6 table: file table size field, legacy offsets table, chunk-size
table, file records). -/
structure PackDesc where
  fileTableSize : Nat
  fileOffsets : List Nat
  chunkSizes : List Nat
  records : List FileDescR

/-- Zero padding taking byte position `pos` to the next 4-byte boundary. -/
def padTo4 (pos : Nat) : List Nat :=
  List.replicate ((4 - pos % 4) % 4) 0

/-- Modelled from the spec: serialization of a `u32` table entry list. -/
def encodeTable : List Nat → List Nat
  | [] => []
  | v :: vs => encodeU32 v ++ encodeTable vs

/-- Modelled from the spec: one encoded file record, without its padding. -/
def encodeRecord (r : FileDescR) : List Nat :=
  encodeU32 r.dataOff ++ encodeU32 r.firstChunk ++ encodeU32 r.sizeOnDisk
    ++ encodeU32 r.sizeInPack ++ r.path ++ [0]

/-- Byte position right after the encoded record starting at `pos`,
including its alignment padding to the next 4-byte boundary. -/
def recEnd (pos : Nat) (r : FileDescR) : Nat :=
  pos + (encodeRecord r).length + (4 - (pos + (encodeRecord r).length) % 4) % 4

/-- Modelled from the spec: the encoded record region, starting at byte
position `pos`, each record padded to the next 4-byte boundary (§6). -/
def encodeRecords : Nat → List FileDescR → List Nat
  | _, [] => []
  | pos, r :: rs =>
    (encodeRecord r ++ padTo4 (pos + (encodeRecord r).length))
      ++ encodeRecords (recEnd pos r) rs

/-- Byte position right after a whole encoded record region. -/
def recsEnd : Nat → List FileDescR → Nat
  | pos, [] => pos
  | pos, r :: rs => recsEnd (recEnd pos r) rs

/-- Modelled from the spec: the full §6 byte layout — magic, version,
file count, file-table size, chunk count, the two tables, the records. -/
def encodePack (d : PackDesc) : List Nat :=
  encodeU32 EXPECTED_MAGIC ++ encodeU32 EXPECTED_VERSION
    ++ encodeU32 d.records.length ++ encodeU32 d.fileTableSize
    ++ encodeU32 d.chunkSizes.length
    ++ encodeTable d.fileOffsets ++ encodeTable d.chunkSizes
    ++ encodeRecords (20 + 4 * d.fileOffsets.length + 4 * d.chunkSizes.length) d.records

/-- Sum of `n` consecutive entries of table `t` starting at index `first`. -/
def sumRange (t : List Nat) (first n : Nat) : Nat :=
  ((t.drop first).take n).sum

/-- Modelled from the spec: validity of one file record owning `n` chunks.
Its chunk range lies inside the table, its in-pack size is exactly the
sum of the range (§4.2: anything else is a corrupt archive), chunk sizes
are positive, sizes fit in `u32` without overflow, path bytes are nonzero
single bytes, and — the §3 `File` invariant by construction — its
uncompressed size is the sum of its chunks' decompressed sizes. -/
structure RecOK (chunkSizes dsizes : List Nat) (n : Nat) (r : FileDescR) : Prop where
  range_le : r.firstChunk + n ≤ chunkSizes.length
  sizeInPack_eq : r.sizeInPack = sumRange chunkSizes r.firstChunk n
  sizes_pos : ∀ s ∈ (chunkSizes.drop r.firstChunk).take n, 0 < s
  no_overflow : r.dataOff + r.sizeInPack < 2 ^ 32
  sizeOnDisk_eq : r.sizeOnDisk = sumRange dsizes r.firstChunk n
  sizeOnDisk_lt : r.sizeOnDisk < 2 ^ 32
  path_bytes : ∀ b ∈ r.path, 0 < b ∧ b < 256

/-- Modelled from the spec: a valid synthetic archive description (§8),
`counts` giving each record's number of chunks and `dsizes` the
decompressed length of each chunk-table entry. -/
structure ValidDesc (dsizes counts : List Nat) (d : PackDesc) : Prop where
  counts_len : counts.length = d.records.length
  offsets_len : d.fileOffsets.length = d.records.length
  fileTableSize_lt : d.fileTableSize < 2 ^ 32
  numFiles_lt : d.records.length < 2 ^ 32
  numChunks_lt : d.chunkSizes.length < 2 ^ 32
  offsets_lt : ∀ v ∈ d.fileOffsets, v < 2 ^ 32
  chunkSizes_lt : ∀ v ∈ d.chunkSizes, v < 2 ^ 32
  recs : ∀ p ∈ List.zip counts d.records, RecOK d.chunkSizes dsizes p.1 p.2

/-- The chunk list the parser is expected to reconstruct for a record:
consecutive sizes laid out contiguously from the record's data offset. -/
def mkChunks (dataOff : Nat) : List Nat → List Chunk
  | [] => []
  | s :: ss => ⟨dataOff, s⟩ :: mkChunks (dataOff + s) ss

/-- The `File` value the parser is expected to produce for record `r`
with `n` chunks. -/
def expectedFile (chunkSizes : List Nat) (n : Nat) (r : FileDescR) : FileRec :=
  ⟨r.path, r.sizeOnDisk, mkChunks r.dataOff ((chunkSizes.drop r.firstChunk).take n)⟩

/-! ### Lemmas about `align` -/

/-- Successor modulo a positive base. -/
theorem succ_mod (pos n : Nat) (hn : 0 < n) :
    (pos + 1) % n = if pos % n + 1 = n then 0 else pos % n + 1 := by
  have hr : pos % n < n := Nat.mod_lt _ hn
  have key : (pos + 1) % n = (pos % n + 1) % n := (Nat.mod_add_mod pos n 1).symm
  by_cases h : pos % n + 1 = n
  · rw [if_pos h, key, h, Nat.mod_self]
  · rw [if_neg h, key, Nat.mod_eq_of_lt (by omega)]

/-- Closed form of the `align` loop, for sufficient fuel and a positive
boundary. -/
theorem alignPos_spec : ∀ (fuel pos n : Nat), 0 < n →
    (n - pos % n) % n ≤ fuel → alignPos fuel pos n = pos + (n - pos % n) % n := by
  intro fuel
  induction fuel with
  | zero =>
    intro pos n hn hfuel
    simp only [alignPos]
    omega
  | succ f ih =>
    intro pos n hn hfuel
    have hr : pos % n < n := Nat.mod_lt _ hn
    simp only [alignPos]
    by_cases h0 : pos % n = 0
    · rw [if_neg (by simp [h0])]
      rw [h0, Nat.sub_zero, Nat.mod_self]
      omega
    · rw [if_pos (by simp [h0])]
      have hnr : (n - pos % n) % n = n - pos % n :=
        Nat.mod_eq_of_lt (by omega)
      have hsucc := succ_mod pos n hn
      by_cases hlast : pos % n + 1 = n
      · have h1 : (pos + 1) % n = 0 := by rw [hsucc, if_pos hlast]
        have := ih (pos + 1) n hn (by rw [h1, Nat.sub_zero, Nat.mod_self]; omega)
        rw [this, h1, Nat.sub_zero, Nat.mod_self]
        omega
      · have h1 : (pos + 1) % n = pos % n + 1 := by rw [hsucc, if_neg hlast]
        have hnr1 : (n - (pos + 1) % n) % n = n - (pos % n + 1) := by
          rw [h1]; exact Nat.mod_eq_of_lt (by omega)
        have := ih (pos + 1) n hn (by rw [hnr1]; omega)
        rw [this, hnr1]
        omega

/-- Closed form of `alignAt`: fuel `n` always suffices. -/
theorem alignAt_eq (pos n : Nat) (hn : 0 < n) :
    alignAt pos n = pos + (n - pos % n) % n := by
  unfold alignAt
  exact alignPos_spec n pos n hn (le_of_lt (Nat.mod_lt _ hn))

/-- C10: for a positive boundary `n`, `align` leaves a position that is
already a multiple of `n` unchanged, and otherwise advances it by fewer
than `n` bytes to a multiple of `n` strictly above the old position —
which, being within `n - 1` bytes, is the least multiple of `n`
exceeding it; consequently `align` is idempotent.  (`alignAt` embeds
`BinaryReader::align`, util.cpp lines 33–38.) -/
theorem align_advances_to_boundary (p n : Nat) (hn : 0 < n) :
    (p % n = 0 → alignAt p n = p) ∧
    (p % n ≠ 0 → p < alignAt p n ∧ alignAt p n - p < n ∧ alignAt p n % n = 0) ∧
    alignAt (alignAt p n) n = alignAt p n := by
  have key := alignAt_eq p n hn
  have hr : p % n < n := Nat.mod_lt _ hn
  refine ⟨?_, ?_, ?_⟩
  · intro h0
    rw [key, h0, Nat.sub_zero, Nat.mod_self]
    omega
  · intro h0
    have hnr : (n - p % n) % n = n - p % n := Nat.mod_eq_of_lt (by omega)
    rw [key, hnr]
    refine ⟨by omega, by omega, ?_⟩
    have : (p + (n - p % n)) % n = (p % n + (n - p % n)) % n :=
      (Nat.mod_add_mod p n (n - p % n)).symm
    rw [this, (by omega : p % n + (n - p % n) = n), Nat.mod_self]
  · have hmod : alignAt p n % n = 0 := by
      by_cases h0 : p % n = 0
      · rw [key, h0, Nat.sub_zero, Nat.mod_self]; simpa using h0
      · have hnr : (n - p % n) % n = n - p % n := Nat.mod_eq_of_lt (by omega)
        rw [key, hnr]
        have : (p + (n - p % n)) % n = (p % n + (n - p % n)) % n :=
          (Nat.mod_add_mod p n (n - p % n)).symm
        rw [this, (by omega : p % n + (n - p % n) = n), Nat.mod_self]
    rw [alignAt_eq _ n hn, hmod, Nat.sub_zero, Nat.mod_self]
    omega

/-- Witness for C10 at position 5, boundary 4. -/
theorem align_advances_to_boundary_witness :
    (5 % 4 = 0 → alignAt 5 4 = 5) ∧
    (5 % 4 ≠ 0 → 5 < alignAt 5 4 ∧ alignAt 5 4 - 5 < 4 ∧ alignAt 5 4 % 4 = 0) ∧
    alignAt (alignAt 5 4) 4 = alignAt 5 4 :=
  align_advances_to_boundary 5 4 (by decide)

/-! ### The missing bounds checks of `BinaryReader` (C6, C7) -/

/-- A concrete process memory: a 100-byte buffer of zeros mapped at
addresses `[0, 100)`, with the byte 7 stored in the surrounding memory. -/
def memEx : Nat → Nat :=
  fun a => if a < 100 then 0 else 7

/-- C6 (code bug witness): with the cursor exactly at the buffer end
(`m_head = m_end`, so `pos + 1` exceeds the buffer), the source
`get_u8` does **not** fail — `util.cpp` never compares `m_head` against
the stored `m_end` — and returns the byte 7 located *outside* the
buffer, a value no in-buffer byte holds.  This contradicts the spec's
bounds-error requirement (spec §4.1). -/
theorem get_u8_reads_past_end :
    SrcReader.get_u8 ⟨memEx, 0, 100, 100⟩ = (7, ⟨memEx, 0, 100, 101⟩) ∧
    (∀ a, a < 100 → memEx a ≠ 7) := by
  constructor
  · rfl
  · decide

/-- C7: when `p + 4` is within bounds, `get_u32` returns the four bytes at
positions `p, p+1, p+2, p+3` combined little-endian (byte at `p` least
significant) and leaves the head at `p + 4`; `get_u8` returns the byte at
`p` and leaves the head at `p + 1`.  Neither mutates the underlying
memory or the buffer pointers — the returned reader differs only in
`mHead`, as the structure equalities show. -/
theorem get_u32_little_endian (mem : Nat → Nat) (b e p : Nat) (h : p + 4 ≤ e) :
    SrcReader.get_u32 ⟨mem, b, e, p⟩ =
      (mem p % 256 + 256 * (mem (p + 1) % 256) + 65536 * (mem (p + 2) % 256)
        + 16777216 * (mem (p + 3) % 256), ⟨mem, b, e, p + 4⟩) ∧
    SrcReader.get_u8 ⟨mem, b, e, p⟩ = (mem p % 256, ⟨mem, b, e, p + 1⟩) := by
  constructor
  · show (mem p % 256 ||| (mem (p + 1) % 256) <<< 8 ||| (mem (p + 2) % 256) <<< 16
        ||| (mem (p + 3) % 256) <<< 24, (⟨mem, b, e, p + 1 + 1 + 1 + 1⟩ : SrcReader)) = _
    have h0 : mem p % 256 < 2 ^ 8 := Nat.mod_lt _ (by norm_num)
    have h1 : mem p % 256 ||| (mem (p + 1) % 256) <<< 8
        = 2 ^ 8 * (mem (p + 1) % 256) + mem p % 256 :=
      lor_shiftLeft_eq_add _ h0
    have h1lt : 2 ^ 8 * (mem (p + 1) % 256) + mem p % 256 < 2 ^ 16 := by
      have := Nat.mod_lt (mem (p + 1)) (show 0 < 256 by norm_num)
      have := Nat.mod_lt (mem p) (show 0 < 256 by norm_num)
      omega
    have h2 : 2 ^ 8 * (mem (p + 1) % 256) + mem p % 256 ||| (mem (p + 2) % 256) <<< 16
        = 2 ^ 16 * (mem (p + 2) % 256) + (2 ^ 8 * (mem (p + 1) % 256) + mem p % 256) :=
      lor_shiftLeft_eq_add _ h1lt
    have h2lt : 2 ^ 16 * (mem (p + 2) % 256)
        + (2 ^ 8 * (mem (p + 1) % 256) + mem p % 256) < 2 ^ 24 := by
      have := Nat.mod_lt (mem (p + 2)) (show 0 < 256 by norm_num)
      have := Nat.mod_lt (mem (p + 1)) (show 0 < 256 by norm_num)
      have := Nat.mod_lt (mem p) (show 0 < 256 by norm_num)
      omega
    have h3 : (2 ^ 16 * (mem (p + 2) % 256) + (2 ^ 8 * (mem (p + 1) % 256) + mem p % 256))
          ||| (mem (p + 3) % 256) <<< 24
        = 2 ^ 24 * (mem (p + 3) % 256)
          + (2 ^ 16 * (mem (p + 2) % 256) + (2 ^ 8 * (mem (p + 1) % 256) + mem p % 256)) :=
      lor_shiftLeft_eq_add _ h2lt
    rw [h1, h2, h3]
    refine Prod.ext ?_ ?_
    · show _ = mem p % 256 + 256 * (mem (p + 1) % 256) + 65536 * (mem (p + 2) % 256)
        + 16777216 * (mem (p + 3) % 256)
      norm_num
      ring
    · show (⟨mem, b, e, p + 1 + 1 + 1 + 1⟩ : SrcReader) = ⟨mem, b, e, p + 4⟩
      norm_num
  · rfl

/-- Witness for C7 over the memory `fun a => a + 1` with the buffer
`[0, 10)` and the head at 2. -/
theorem get_u32_little_endian_witness :
    SrcReader.get_u32 ⟨fun a => a + 1, 0, 10, 2⟩ =
      (3 + 256 * 4 + 65536 * 5 + 16777216 * 6, ⟨fun a => a + 1, 0, 10, 6⟩) ∧
    SrcReader.get_u8 ⟨fun a => a + 1, 0, 10, 2⟩ = (3, ⟨fun a => a + 1, 0, 10, 3⟩) :=
  get_u32_little_endian (fun a => a + 1) 0 10 2 (by decide)

/-! ### Worker striding (C8) -/

/-- Every index produced by the striding loop is at least the loop's
starting index. -/
theorem workerIndicesAux_le (numThreads numFiles : Nat) :
    ∀ fuel j x, x ∈ workerIndicesAux numThreads numFiles fuel j → j ≤ x := by
  intro fuel
  induction fuel with
  | zero => intro j x hx; simp [workerIndicesAux] at hx
  | succ f ih =>
    intro j x hx
    simp only [workerIndicesAux] at hx
    by_cases hj : j < numFiles
    · rw [if_pos hj] at hx
      rcases List.mem_cons.1 hx with h | h
      · omega
      · have := ih (j + numThreads) x h
        omega
    · rw [if_neg hj] at hx
      simp at hx

/-- Membership in the striding loop's index list, for sufficient fuel:
exactly the indices below `numFiles` that are reachable from `j` in
steps of `numThreads`. -/
theorem workerIndicesAux_mem (numThreads numFiles : Nat) (hN : 0 < numThreads) :
    ∀ fuel j x, numFiles ≤ j + fuel * numThreads →
      (x ∈ workerIndicesAux numThreads numFiles fuel j ↔
        (j ≤ x ∧ x < numFiles ∧ (x - j) % numThreads = 0)) := by
  intro fuel
  induction fuel with
  | zero =>
    intro j x hfuel
    simp only [workerIndicesAux, List.not_mem_nil, false_iff]
    omega
  | succ f ih =>
    intro j x hfuel
    simp only [workerIndicesAux]
    by_cases hj : j < numFiles
    · have hexp : (f + 1) * numThreads = f * numThreads + numThreads := by ring
      rw [if_pos hj, List.mem_cons]
      rw [ih (j + numThreads) x (by omega : numFiles ≤ j + numThreads + f * numThreads)]
      constructor
      · rintro (rfl | ⟨h1, h2, h3⟩)
        · exact ⟨le_refl _, hj, by simp⟩
        · refine ⟨by omega, h2, ?_⟩
          have hsplit : x - j = (x - (j + numThreads)) + numThreads := by omega
          rw [hsplit, Nat.add_mod_right]
          exact h3
      · rintro ⟨h1, h2, h3⟩
        by_cases hxj : x = j
        · exact Or.inl hxj
        · right
          have hdvd : numThreads ∣ (x - j) := Nat.dvd_of_mod_eq_zero h3
          rcases hdvd with ⟨t, ht⟩
          rcases t with _ | s
          · omega
          · have hmul : numThreads * (s + 1) = numThreads * s + numThreads :=
              Nat.mul_succ _ _
            refine ⟨by omega, h2, ?_⟩
            have hrw : x - (j + numThreads) = numThreads * s := by omega
            rw [hrw]
            exact Nat.mul_mod_right _ _
    · rw [if_neg hj]
      simp only [List.not_mem_nil, false_iff]
      omega

/-- The striding loop's index list is strictly increasing. -/
theorem workerIndicesAux_sorted (numThreads numFiles : Nat) (hN : 0 < numThreads) :
    ∀ fuel j, List.Sorted (· < ·) (workerIndicesAux numThreads numFiles fuel j) := by
  intro fuel
  induction fuel with
  | zero => intro j; simp [workerIndicesAux]
  | succ f ih =>
    intro j
    simp only [workerIndicesAux]
    by_cases hj : j < numFiles
    · rw [if_pos hj]
      refine List.Pairwise.cons ?_ (ih (j + numThreads))
      intro x hx
      have := workerIndicesAux_le numThreads numFiles f (j + numThreads) x hx
      omega
    · rw [if_neg hj]
      simp

/-- C8: for a worker count `N ≥ 1` and a worker `k < N` over `M` files,
the striding loop of `cmd_extract` visits exactly the indices
`j ∈ [0, M)` with `j % N = k` — i.e. `k, k + N, k + 2N, …` below `M` —
and visits them in strictly increasing order.  Since for each `j < M`
the residue `j % N` picks exactly one worker, every file is processed by
exactly one worker. -/
theorem worker_partition (N M k : Nat) (hN : 0 < N) (hk : k < N) :
    (∀ j, j ∈ workerIndices N M k ↔ (j < M ∧ j % N = k)) ∧
    List.Sorted (· < ·) (workerIndices N M k) := by
  constructor
  · intro j
    unfold workerIndices
    rw [workerIndicesAux_mem N M hN (M + 1) k j (by nlinarith)]
    constructor
    · rintro ⟨h1, h2, h3⟩
      refine ⟨h2, ?_⟩
      have hdvd : N ∣ (j - k) := Nat.dvd_of_mod_eq_zero h3
      rcases hdvd with ⟨t, ht⟩
      have : j = k + N * t := by omega
      rw [this, Nat.add_mul_mod_self_left, Nat.mod_eq_of_lt hk]
    · rintro ⟨h1, h2⟩
      have hk_le : k ≤ j := by
        have := Nat.mod_le j N
        omega
      refine ⟨hk_le, h1, ?_⟩
      have : j = N * (j / N) + j % N := (Nat.div_add_mod j N).symm
      have hj : j - k = N * (j / N) := by omega
      rw [hj]
      exact Nat.mul_mod_right _ _
  · exact workerIndicesAux_sorted N M hN (M + 1) k

/-- Witness for C8 with 2 workers over 5 files, worker 1. -/
theorem worker_partition_witness :
    (3 ∈ workerIndices 2 5 1 ↔ (3 < 5 ∧ 3 % 2 = 1)) ∧
    List.Sorted (· < ·) (workerIndices 2 5 1) :=
  ⟨(worker_partition 2 5 1 (by decide) (by decide)).1 3,
    (worker_partition 2 5 1 (by decide) (by decide)).2⟩

/-! ### Listing output (C9) -/

/-- Folding string concatenation from an arbitrary initial string. -/
theorem foldl_append_init (l : List String) :
    ∀ s : String, List.foldl (fun r t => r ++ t) s l
      = s ++ List.foldl (fun r t => r ++ t) "" l := by
  induction l with
  | nil => intro s; simp
  | cons x xs ih =>
    intro s
    simp only [List.foldl_cons]
    rw [ih (s ++ x), ih ("" ++ x), String.empty_append, String.append_assoc]

/-- The inner `cmd_list` loop emits one `<path>\n` line per file path. -/
theorem listFileLines_eq (ps : List String) :
    listFileLines ps = String.join (ps.map (fun p => p ++ "\n")) := by
  induction ps with
  | nil => simp [listFileLines, String.join]
  | cons p ps ih =>
    simp only [listFileLines, List.map_cons, String.join, List.foldl_cons] at *
    rw [ih, String.empty_append, foldl_append_init _ (p ++ "\n")]

/-- C9 counterexample: for the archive named `a.pack` containing the one
file `x.txt`, the `cmd_list` loop prints the line `x.txt` — not
`a.pack: x.txt` as the claim states — because main.cpp line 220 streams
only `file.path`, never the archive name. -/
theorem cmd_list_line_not_prefixed :
    cmdListOutput [("a.pack", ["x.txt"])] ≠ "a.pack" ++ ": " ++ "x.txt" ++ "\n" := by
  decide

/-- C9 (amended): `cmd_list` prints exactly one line per relative path of
each listed archive, in order, and each line consists of the file's
relative path alone (the archive name is not printed, and no filter
exists in the source CLI). -/
theorem cmd_list_one_line_per_path (packs : List (String × List String)) :
    cmdListOutput packs
      = String.join (packs.map (fun pk => String.join (pk.2.map (fun p => p ++ "\n")))) := by
  induction packs with
  | nil => simp [cmdListOutput, String.join]
  | cons pk pks ih =>
    simp only [cmdListOutput, List.map_cons, String.join, List.foldl_cons]
    rw [ih, listFileLines_eq]
    simp only [String.join, String.empty_append]
    rw [foldl_append_init _ (List.foldl (fun r s => r ++ s) "" (List.map (fun p => p ++ "\n") pk.2))]

/-! ### The chunk compression decision (C1) -/

/-- C1: during extraction, a chunk is sent through the decompressor if
and only if its on-disk length is strictly below 65536 **and** the bytes
already produced plus that length differ from the file's total
uncompressed size; otherwise its on-disk bytes are appended verbatim.
In particular (second conjunct) a chunk whose on-disk length exactly
completes the file is copied raw even when shorter than 65536.
(`extractFileAux` embeds the chunk loop of `cmd_extract`, main.cpp lines
269–293.) -/
theorem chunk_compressed_iff (lzo : List Nat → Option (List Nat)) (arch : List Nat)
    (sizeOnDisk bytesOut : Nat) (c : Chunk) (cs : List Chunk) :
    (extractFileAux lzo arch sizeOnDisk (c :: cs) bytesOut =
      if c.size < 65536 ∧ bytesOut + c.size ≠ sizeOnDisk then
        (lzo (chunkData arch c)).bind
          (fun d => (extractFileAux lzo arch sizeOnDisk cs (bytesOut + d.length)).map
            (fun rest => d ++ rest))
      else
        (extractFileAux lzo arch sizeOnDisk cs (bytesOut + c.size)).map
          (fun rest => chunkData arch c ++ rest)) ∧
    (bytesOut + c.size = sizeOnDisk →
      extractFileAux lzo arch sizeOnDisk (c :: cs) bytesOut =
        (extractFileAux lzo arch sizeOnDisk cs (bytesOut + c.size)).map
          (fun rest => chunkData arch c ++ rest)) := by
  have hbool : chunk_is_compressed c.size bytesOut sizeOnDisk = true
      ↔ (c.size < 65536 ∧ bytesOut + c.size ≠ sizeOnDisk) := by
    simp [chunk_is_compressed, LZO_BUFFER_SIZE]
  have hmain : extractFileAux lzo arch sizeOnDisk (c :: cs) bytesOut =
      if c.size < 65536 ∧ bytesOut + c.size ≠ sizeOnDisk then
        (lzo (chunkData arch c)).bind
          (fun d => (extractFileAux lzo arch sizeOnDisk cs (bytesOut + d.length)).map
            (fun rest => d ++ rest))
      else
        (extractFileAux lzo arch sizeOnDisk cs (bytesOut + c.size)).map
          (fun rest => chunkData arch c ++ rest) := by
    simp only [extractFileAux]
    by_cases hcond : c.size < 65536 ∧ bytesOut + c.size ≠ sizeOnDisk
    · rw [if_pos (hbool.2 hcond), if_pos hcond]
      cases hl : lzo (chunkData arch c) with
      | none => simp
      | some d =>
        cases hrec : extractFileAux lzo arch sizeOnDisk cs (bytesOut + d.length) with
        | none => simp [hrec]
        | some rest => simp [hrec]
    · rw [if_neg (fun ht => hcond (hbool.1 ht)), if_neg hcond]
      cases hrec : extractFileAux lzo arch sizeOnDisk cs (bytesOut + c.size) with
      | none => simp [hrec]
      | some rest => simp [hrec]
  refine ⟨hmain, ?_⟩
  intro hfin
  rw [hmain, if_neg (by simp [hfin])]

/-- Witness for C1: a final 2-byte chunk exactly completing a 4-byte file
is copied raw (even though 2 < 65536). -/
theorem chunk_compressed_iff_witness :
    (extractFileAux (fun l => some (l ++ l)) [1, 2, 3, 4] 4 [⟨0, 2⟩] 2 =
      if (⟨0, 2⟩ : Chunk).size < 65536 ∧ 2 + (⟨0, 2⟩ : Chunk).size ≠ 4 then
        ((fun l => some (l ++ l)) (chunkData [1, 2, 3, 4] ⟨0, 2⟩)).bind
          (fun d => (extractFileAux (fun l => some (l ++ l)) [1, 2, 3, 4] 4 [] (2 + d.length)).map
            (fun rest => d ++ rest))
      else
        (extractFileAux (fun l => some (l ++ l)) [1, 2, 3, 4] 4 [] (2 + (⟨0, 2⟩ : Chunk).size)).map
          (fun rest => chunkData [1, 2, 3, 4] ⟨0, 2⟩ ++ rest)) ∧
    (2 + (⟨0, 2⟩ : Chunk).size = 4 →
      extractFileAux (fun l => some (l ++ l)) [1, 2, 3, 4] 4 [⟨0, 2⟩] 2 =
        (extractFileAux (fun l => some (l ++ l)) [1, 2, 3, 4] 4 [] (2 + (⟨0, 2⟩ : Chunk).size)).map
          (fun rest => chunkData [1, 2, 3, 4] ⟨0, 2⟩ ++ rest)) :=
  chunk_compressed_iff (fun l => some (l ++ l)) [1, 2, 3, 4] 4 2 ⟨0, 2⟩ []

/-! ### The chunk-reconstruction loop (C2, C3) -/

/-- The model's fuel is never exhausted: the loop index grows by one per
iteration and the loop aborts (table overrun) as soon as the index
leaves the table, so `chunkSizes.length + 1` iterations always suffice.
Hence a `loopFuel` result is unreachable from `buildChunks`. -/
theorem buildChunksAux_ne_loopFuel (cs : List Nat) (dataOff sip : Nat) :
    ∀ fuel idx acc, 1 ≤ fuel → cs.length + 1 ≤ fuel + idx →
      buildChunksAux cs dataOff sip fuel idx acc ≠ .error .loopFuel := by
  intro fuel
  induction fuel with
  | zero => intro idx acc h1 _; omega
  | succ f ih =>
    intro idx acc _ hlen
    simp only [buildChunksAux]
    by_cases hc : acc % 2 ^ 32 < sip
    · rw [if_pos hc]
      split
      · simp
      · rename_i sz hidx
        split
        · rename_i e hrec
          have hil : idx < cs.length := by
            rcases List.getElem?_eq_some_iff.1 hidx with ⟨hlt, _⟩
            exact hlt
          have hne := ih (idx + 1) (acc + sz) (by omega) (by omega)
          rw [hrec] at hne
          intro hcontra
          injection hcontra with he
          rw [he] at hne
          exact hne rfl
        · simp
    · rw [if_neg hc]
      simp

/-- `buildChunks` never reports the fuel artifact: its `.error` results
are exactly table overruns (plus nothing else for the loop itself). -/
theorem buildChunks_ne_loopFuel (cs : List Nat) (dataOff sip firstIdx : Nat) :
    buildChunks cs dataOff sip firstIdx ≠ .error .loopFuel :=
  buildChunksAux_ne_loopFuel cs dataOff sip (cs.length + 1) firstIdx 0
    (by omega) (by omega)

/-- Soundness of a successful chunk-loop run, generalized over the loop
state: the produced sizes are consecutive table entries from the current
index, the chunks are laid out contiguously from `dataOff + acc`, every
chunk was emitted while the accumulated length was still below
`sizeInPack`, and the loop stopped as soon as it reached it. -/
theorem buildChunksAux_sound (cs : List Nat) (dataOff sip : Nat) :
    ∀ fuel idx acc l,
      buildChunksAux cs dataOff sip fuel idx acc = .ok l →
      dataOff + acc + (l.map Chunk.size).sum < 2 ^ 32 →
      (l.map Chunk.size = (cs.drop idx).take l.length ∧
       l = mkChunks (dataOff + acc) (l.map Chunk.size) ∧
       (l ≠ [] → acc + ((l.map Chunk.size).dropLast).sum < sip) ∧
       sip ≤ acc + (l.map Chunk.size).sum) := by
  intro fuel
  induction fuel with
  | zero =>
    intro idx acc l h _
    simp [buildChunksAux] at h
  | succ f ih =>
    intro idx acc l h hov
    simp only [buildChunksAux] at h
    by_cases hc : acc % 2 ^ 32 < sip
    · rw [if_pos hc] at h
      split at h
      · exact absurd h (by simp)
      · rename_i sz hidx
        split at h
        · exact absurd h (by simp)
        · rename_i l₂ hrec
          injection h with h
          subst h
          obtain ⟨hil, hsz⟩ := List.getElem?_eq_some_iff.1 hidx
          have hmap : (List.map Chunk.size (⟨(dataOff + acc) % 2 ^ 32, sz⟩ :: l₂))
              = sz :: List.map Chunk.size l₂ := by simp
          have hsum_eq : (List.map Chunk.size (⟨(dataOff + acc) % 2 ^ 32, sz⟩ :: l₂)).sum
              = sz + (List.map Chunk.size l₂).sum := by simp
          have hov₂ : dataOff + (acc + sz) + (List.map Chunk.size l₂).sum < 2 ^ 32 := by
            rw [hsum_eq] at hov
            omega
          obtain ⟨iha, ihb, ihc, ihd⟩ := ih (idx + 1) (acc + sz) l₂ hrec hov₂
          have haccb : acc < 2 ^ 32 := by omega
          have hoffb : (dataOff + acc) % 2 ^ 32 = dataOff + acc :=
            Nat.mod_eq_of_lt (by omega)
          refine ⟨?_, ?_, ?_, ?_⟩
          · rw [hmap]
            have hdrop : cs.drop idx = cs[idx] :: cs.drop (idx + 1) :=
              List.drop_eq_getElem_cons hil
            rw [hdrop, hsz]
            simp only [List.length_cons, List.take_succ_cons]
            rw [iha]
          · rw [hmap]
            simp only [mkChunks]
            rw [hoffb]
            refine congrArg (fun t => Chunk.mk (dataOff + acc) sz :: t) ?_
            have hassoc : dataOff + acc + sz = dataOff + (acc + sz) := by omega
            rw [hassoc]
            exact ihb
          · intro _
            rw [hmap]
            cases hl₂ : l₂ with
            | nil =>
              simp only [hl₂, List.map_nil, List.dropLast_single, List.sum_nil]
              omega
            | cons c₂ l₃ =>
              have hne : List.map Chunk.size l₂ ≠ [] := by
                rw [hl₂]; simp
              rw [← hl₂, List.dropLast_cons_of_ne_nil hne, List.sum_cons]
              have := ihc (by rw [hl₂]; simp)
              omega
          · rw [hsum_eq]
            omega
    · rw [if_neg hc] at h
      injection h with h
      subst h
      have haccb : acc % 2 ^ 32 = acc := Nat.mod_eq_of_lt (by simp at hov; omega)
      refine ⟨by simp, by simp [mkChunks], by simp, ?_⟩
      simp only [List.map_nil, List.sum_nil, Nat.add_zero]
      omega

/-- C2: for a file record parsed by `open`, a successfully reconstructed
chunk list consists of consecutive entries of the global chunk-size
table starting at the record's first-chunk index (first conjunct); each
chunk sits at a running byte offset starting at the file's data offset
and advancing by the previous chunk's size, i.e. the list is exactly
`mkChunks dataOff` of its sizes (second conjunct); and the loop stops as
soon as the accumulated length reaches the record's size-in-pack: every
proper prefix — equivalently, the list without its last chunk — sums
below it, while the whole list reaches it (last two conjuncts).  The
arithmetic side conditions discharge the `uint32_t` wraparound. -/
theorem chunk_list_reconstruction (cs : List Nat) (dataOff sip firstIdx : Nat)
    (l : List Chunk) (hok : buildChunks cs dataOff sip firstIdx = .ok l)
    (hsip : sip < 2 ^ 32) (hov : dataOff + (l.map Chunk.size).sum < 2 ^ 32) :
    l.map Chunk.size = (cs.drop firstIdx).take l.length ∧
    l = mkChunks dataOff (l.map Chunk.size) ∧
    (l ≠ [] → ((l.map Chunk.size).dropLast).sum < sip) ∧
    sip ≤ (l.map Chunk.size).sum := by
  have := buildChunksAux_sound cs dataOff sip (cs.length + 1) firstIdx 0 l hok
    (by omega : dataOff + 0 + (l.map Chunk.size).sum < 2 ^ 32)
  obtain ⟨ha, hb, hc, hd⟩ := this
  refine ⟨ha, ?_, ?_, by omega⟩
  · rw [Nat.add_zero] at hb
    exact hb
  · intro hne
    have := hc hne
    omega

/-- Witness for C2 over the table `[3, 2, 7]`, data offset 100,
size-in-pack 5: the loop reconstructs the two contiguous chunks
`(100, 3), (103, 2)`. -/
theorem chunk_list_reconstruction_witness :
    List.map Chunk.size [⟨100, 3⟩, ⟨103, 2⟩]
        = (([3, 2, 7] : List Nat).drop 0).take ([⟨100, 3⟩, (⟨103, 2⟩ : Chunk)]).length ∧
    [⟨100, 3⟩, ⟨103, 2⟩] = mkChunks 100 (List.map Chunk.size [⟨100, 3⟩, ⟨103, 2⟩]) ∧
    (([⟨100, 3⟩, (⟨103, 2⟩ : Chunk)]) ≠ []
      → ((List.map Chunk.size [⟨100, 3⟩, ⟨103, 2⟩]).dropLast).sum < 5) ∧
    5 ≤ (List.map Chunk.size [⟨100, 3⟩, ⟨103, 2⟩]).sum :=
  chunk_list_reconstruction [3, 2, 7] 100 5 0 [⟨100, 3⟩, ⟨103, 2⟩]
    rfl (by decide) (by decide)

/-- Exactness of the chunk loop: when the remaining size to cover is
exactly the sum of the next `sizes` table entries (all positive), the
loop consumes exactly those entries and succeeds. -/
theorem buildChunksAux_exact (cs : List Nat) (dataOff : Nat) :
    ∀ (sizes : List Nat) (fuel idx acc sip : Nat),
      (cs.drop idx).take sizes.length = sizes →
      idx + sizes.length ≤ cs.length →
      (∀ s ∈ sizes, 0 < s) →
      acc + sizes.sum = sip →
      sip < 2 ^ 32 →
      dataOff + sip < 2 ^ 32 →
      sizes.length < fuel →
      buildChunksAux cs dataOff sip fuel idx acc
        = .ok (mkChunks (dataOff + acc) sizes) := by
  intro sizes
  induction sizes with
  | nil =>
    intro fuel idx acc sip _ _ _ hsum hsip hov hfuel
    cases fuel with
    | zero => omega
    | succ f =>
      simp only [buildChunksAux]
      rw [if_neg (by
        rw [Nat.mod_eq_of_lt (by omega : acc < 2 ^ 32)]
        simp at hsum
        omega)]
      simp [mkChunks]
  | cons sz ss ih =>
    intro fuel idx acc sip htake hrange hpos hsum hsip hov hfuel
    cases fuel with
    | zero => omega
    | succ f =>
      have hil : idx < cs.length := by simp at hrange; omega
      have hdrop : cs.drop idx = cs[idx] :: cs.drop (idx + 1) :=
        List.drop_eq_getElem_cons hil
      rw [hdrop] at htake
      simp only [List.length_cons, List.take_succ_cons, List.cons.injEq] at htake
      obtain ⟨hhead, htail⟩ := htake
      have hidx : cs[idx]? = some sz := by
        rw [List.getElem?_eq_getElem hil, hhead]
      have hszpos : 0 < sz := hpos sz (by simp)
      have hsumss : acc + sz + ss.sum = sip := by
        simp only [List.sum_cons] at hsum
        omega
      simp only [buildChunksAux]
      rw [if_pos (by
        rw [Nat.mod_eq_of_lt (by omega : acc < 2 ^ 32)]
        omega)]
      have hrec := ih f (idx + 1) (acc + sz) sip htail (by simp at hrange; omega)
        (fun s hs => hpos s (by simp [hs])) hsumss hsip hov (by simp at hfuel; omega)
      simp only [hidx, hrec, mkChunks]
      rw [Nat.mod_eq_of_lt (by omega : dataOff + acc < 2 ^ 32)]
      refine congrArg (fun t => Except.ok (Chunk.mk (dataOff + acc) sz :: t)) ?_
      refine congrArg (fun t => mkChunks t ss) ?_
      omega

/-- A 48-byte archive with a correct magic and version, one file and a
one-entry chunk-size table `[2]`, whose single record declares
`size_in_pack = 5`: the chunk loop consumes entry 0 (2 bytes,
accumulated 2 < 5) and then consults chunk index 1, one past the end of
the table. -/
def corruptArchive : List Nat :=
  [80, 65, 67, 75,
   0, 0, 3, 0,
   1, 0, 0, 0,
   1, 2, 3, 4,
   1, 0, 0, 0,
   1, 1, 1, 1,
   2, 0, 0, 0,
   1, 2, 3, 4,
   0, 0, 0, 0,
   5, 0, 0, 0,
   5, 0, 0, 0,
   97, 0, 7, 7]

/-- C3 counterexample: on `corruptArchive` the chunk-reconstruction loop
of `open` *does* read past the end of the chunk-size table — the parse
ends in the `chunkOverrun` state, which the model produces exactly when
`chunk_sizes[chunk_index]` is consulted with `chunk_index ≥` the
declared chunk count (here index 1 with table length 1; in the source
this is an out-of-bounds `std::vector` access, undefined behaviour).
This refutes the claim for archives whose on-disk size is not exactly
reachable by accumulating consecutive chunk sizes. -/
theorem open_reads_past_chunk_table :
    pack_open corruptArchive = .error .chunkOverrun := by
  rfl

/-- C3 (amended): the chunk loop never reads past the chunk-size table
*provided* the record's size-in-pack is exactly reachable: if some `n`
consecutive positive table entries starting at the first-chunk index sum
to it, the loop succeeds, consuming exactly those `n` entries.  (On the
`corruptArchive` input above, where no such `n` exists, the loop
overruns the table instead.) -/
theorem chunk_loop_stays_in_table (cs : List Nat) (dataOff sip firstIdx n : Nat)
    (hrange : firstIdx + n ≤ cs.length)
    (hpos : ∀ s ∈ (cs.drop firstIdx).take n, 0 < s)
    (hsum : ((cs.drop firstIdx).take n).sum = sip)
    (hsip : sip < 2 ^ 32) (hov : dataOff + sip < 2 ^ 32) :
    buildChunks cs dataOff sip firstIdx
      = .ok (mkChunks dataOff ((cs.drop firstIdx).take n)) := by
  have hlen : ((cs.drop firstIdx).take n).length = n := by
    rw [List.length_take, List.length_drop]
    omega
  have htake : (cs.drop firstIdx).take ((cs.drop firstIdx).take n).length
      = (cs.drop firstIdx).take n := by
    rw [hlen]
  have := buildChunksAux_exact cs dataOff ((cs.drop firstIdx).take n)
    (cs.length + 1) firstIdx 0 sip htake (by omega) hpos (by omega) hsip hov
    (by omega)
  rw [Nat.add_zero] at this
  exact this

/-- Witness for the amended C3: table `[3, 2]`, size-in-pack 5 is exactly
the sum of the two entries, so the loop succeeds without overrun. -/
theorem chunk_loop_stays_in_table_witness :
    buildChunks [3, 2] 7 5 0
      = .ok (mkChunks 7 ((([3, 2] : List Nat).drop 0).take 2)) :=
  chunk_loop_stays_in_table [3, 2] 7 5 0 2 (by decide) (by decide) (by decide)
    (by decide) (by decide)

/-! ### Reading back encoded bytes -/

/-- In-bounds `byteAt` as a `getD` value. -/
theorem byteAt_lt (data : List Nat) (p : Nat) (hp : p < data.length) :
    byteAt data p = some (data.getD p 0 % 256) := by
  unfold byteAt
  rw [List.getElem?_eq_getElem hp]
  simp [List.getD_eq_getElem?_getD, List.getElem?_eq_getElem hp]

/-- An in-bounds `u32` read returns the little-endian word at the
position and advances by 4. -/
theorem readU32_inBounds (data : List Nat) (pos : Nat) (h : pos + 4 ≤ data.length) :
    readU32 data pos = some (word32At data pos, pos + 4) := by
  have h0 := byteAt_lt data pos (by omega)
  have h1 := byteAt_lt data (pos + 1) (by omega)
  have h2 := byteAt_lt data (pos + 1 + 1) (by omega)
  have h3 := byteAt_lt data (pos + 1 + 1 + 1) (by omega)
  simp only [readU32, readU8, h0, h1, h2, h3, Option.map_some']
  refine congrArg some (Prod.ext ?_ rfl)
  show _ = word32At data pos
  have b0 := Nat.mod_lt (data.getD pos 0) (show 0 < 256 by norm_num)
  have b1 := Nat.mod_lt (data.getD (pos + 1) 0) (show 0 < 256 by norm_num)
  have b2 := Nat.mod_lt (data.getD (pos + 2) 0) (show 0 < 256 by norm_num)
  have b3 := Nat.mod_lt (data.getD (pos + 3) 0) (show 0 < 256 by norm_num)
  rw [lor_shiftLeft_eq_add _ (show data.getD pos 0 % 256 < 2 ^ 8 by omega)]
  rw [lor_shiftLeft_eq_add _
    (show 2 ^ 8 * (data.getD (pos + 1) 0 % 256) + data.getD pos 0 % 256 < 2 ^ 16 by omega)]
  rw [lor_shiftLeft_eq_add _
    (show 2 ^ 16 * (data.getD (pos + 2) 0 % 256)
      + (2 ^ 8 * (data.getD (pos + 1) 0 % 256) + data.getD pos 0 % 256) < 2 ^ 24 by omega)]
  unfold word32At
  have hx2 : data.getD (pos + 1 + 1) 0 = data.getD (pos + 2) 0 := rfl
  have hx3 : data.getD (pos + 1 + 1 + 1) 0 = data.getD (pos + 3) 0 := rfl
  omega

/-- Reading the word stored by `encodeU32` recovers the encoded value. -/
theorem word32At_append (pre : List Nat) (n : Nat) (rest : List Nat) (hn : n < 2 ^ 32) :
    word32At (pre ++ (encodeU32 n ++ rest)) pre.length = n := by
  have hget : ∀ i, i < 4 →
      (pre ++ (encodeU32 n ++ rest)).getD (pre.length + i) 0 = (encodeU32 n).getD i 0 := by
    intro i hi
    simp only [List.getD_eq_getElem?_getD]
    rw [List.getElem?_append_right (by omega : pre.length ≤ pre.length + i),
      Nat.add_sub_cancel_left,
      List.getElem?_append_left (by simp [encodeU32]; omega : i < (encodeU32 n).length)]
  have e0 : pre.length + 0 = pre.length := rfl
  unfold word32At
  rw [← e0, hget 0 (by omega), hget 1 (by omega), hget 2 (by omega), hget 3 (by omega)]
  simp only [encodeU32, List.getD_eq_getElem?_getD, List.getElem?_cons_zero,
    List.getElem?_cons_succ, Option.getD_some]
  omega

/-- `readU32` round-trips `encodeU32` at the end of any prefix. -/
theorem readU32_encode (pre : List Nat) (n : Nat) (rest : List Nat) (hn : n < 2 ^ 32) :
    readU32 (pre ++ (encodeU32 n ++ rest)) pre.length = some (n, pre.length + 4) := by
  have hlen : pre.length + 4 ≤ (pre ++ (encodeU32 n ++ rest)).length := by
    simp [encodeU32]
  rw [readU32_inBounds _ _ hlen, word32At_append pre n rest hn]

/-- The `get_c_str` loop round-trips a zero-terminated path of nonzero
single bytes stored at the end of any prefix, for sufficient fuel. -/
theorem getCStrAux_encode :
    ∀ (path pre rest : List Nat) (fuel : Nat),
      (∀ b ∈ path, 0 < b ∧ b < 256) →
      path.length < fuel →
      getCStrAux (pre ++ (path ++ 0 :: rest)) fuel pre.length
        = some (path, pre.length + path.length + 1) := by
  intro path
  induction path with
  | nil =>
    intro pre rest fuel _ hfuel
    cases fuel with
    | zero => omega
    | succ f =>
      have hb : byteAt (pre ++ ([] ++ 0 :: rest)) pre.length = some 0 := by
        unfold byteAt
        rw [List.getElem?_append_right (le_refl _), Nat.sub_self]
        simp
      simp only [getCStrAux, hb]
      simp
  | cons b path ih =>
    intro pre rest fuel hbytes hfuel
    cases fuel with
    | zero => omega
    | succ f =>
      have hb0 : 0 < b ∧ b < 256 := hbytes b (by simp)
      have hb : byteAt (pre ++ ((b :: path) ++ 0 :: rest)) pre.length = some b := by
        unfold byteAt
        rw [List.getElem?_append_right (le_refl _), Nat.sub_self]
        simp [Nat.mod_eq_of_lt hb0.2]
      simp only [getCStrAux, hb]
      rw [if_neg (by omega)]
      have hdata : pre ++ ((b :: path) ++ 0 :: rest)
          = (pre ++ [b]) ++ (path ++ 0 :: rest) := by simp
      rw [hdata]
      have hlen : (pre ++ [b]).length = pre.length + 1 := by simp
      have := ih (pre ++ [b]) rest f
        (fun x hx => hbytes x (by simp [hx])) (by simp at hfuel; omega)
      rw [hlen] at this
      rw [this]
      simp only [Option.map_some']
      refine congrArg some (Prod.ext rfl ?_)
      show pre.length + 1 + path.length + 1 = pre.length + (b :: path).length + 1
      simp
      omega

/-- `getCStr` round-trips an encoded path: the wrapper's fuel
`data.length + 1` always exceeds the path length. -/
theorem getCStr_encode (path pre rest : List Nat)
    (hbytes : ∀ b ∈ path, 0 < b ∧ b < 256) :
    getCStr (pre ++ (path ++ 0 :: rest)) pre.length
      = some (path, pre.length + path.length + 1) := by
  unfold getCStr
  exact getCStrAux_encode path pre rest _ hbytes (by simp; omega)

/-- Length of an encoded `u32` table. -/
theorem encodeTable_length (t : List Nat) : (encodeTable t).length = 4 * t.length := by
  induction t with
  | nil => simp [encodeTable]
  | cons v vs ih => simp [encodeTable, encodeU32, ih]; omega

/-- The table-reading loop round-trips an encoded table stored at the end
of any prefix. -/
theorem readTable_encode :
    ∀ (t : List Nat) (pre rest : List Nat),
      (∀ v ∈ t, v < 2 ^ 32) →
      readTable (pre ++ (encodeTable t ++ rest)) pre.length t.length
        = some (t, pre.length + 4 * t.length) := by
  intro t
  induction t with
  | nil =>
    intro pre rest _
    simp [readTable, encodeTable]
  | cons v vs ih =>
    intro pre rest hbound
    have hdata : pre ++ (encodeTable (v :: vs) ++ rest)
        = pre ++ (encodeU32 v ++ (encodeTable vs ++ rest)) := by
      simp [encodeTable]
    simp only [List.length_cons, readTable, hdata]
    rw [readU32_encode pre v (encodeTable vs ++ rest) (hbound v (by simp))]
    have hdata₂ : pre ++ (encodeU32 v ++ (encodeTable vs ++ rest))
        = (pre ++ encodeU32 v) ++ (encodeTable vs ++ rest) := by simp
    rw [hdata₂]
    have hlen : (pre ++ encodeU32 v).length = pre.length + 4 := by simp [encodeU32]
    have := ih (pre ++ encodeU32 v) rest (fun x hx => hbound x (by simp [hx]))
    rw [hlen] at this
    dsimp only
    rw [this]
    refine congrArg some (Prod.ext rfl ?_)
    show pre.length + 4 + 4 * vs.length = pre.length + 4 * (vs.length + 1)
    omega

/-- The record-parsing loop of `open` round-trips an encoded record
region: for records valid per `RecOK` (with `rsc` pairing each record
with its chunk count), parsing produces exactly the expected `File`
values. -/
theorem parseRecords_encode (cs dsizes : List Nat) (hcs : cs.length < 2 ^ 32) :
    ∀ (rsc : List (Nat × FileDescR)) (pre rest : List Nat),
      (∀ p ∈ rsc, RecOK cs dsizes p.1 p.2) →
      parseRecords (pre ++ (encodeRecords pre.length (rsc.map Prod.snd) ++ rest)) cs
          pre.length rsc.length
        = .ok (rsc.map (fun p => expectedFile cs p.1 p.2),
               recsEnd pre.length (rsc.map Prod.snd)) := by
  intro rsc
  induction rsc with
  | nil =>
    intro pre rest _
    simp [parseRecords, encodeRecords, recsEnd]
  | cons p rsc ih =>
    obtain ⟨n, r⟩ := p
    intro pre rest hall
    have hrec : RecOK cs dsizes n r := hall (n, r) (by simp)
    have hb1 : r.dataOff < 2 ^ 32 := by have := hrec.no_overflow; omega
    have hb2 : r.firstChunk < 2 ^ 32 := by have := hrec.range_le; omega
    have hb3 : r.sizeOnDisk < 2 ^ 32 := hrec.sizeOnDisk_lt
    have hb4 : r.sizeInPack < 2 ^ 32 := by have := hrec.no_overflow; omega
    simp only [List.map_cons, List.length_cons]
    have e1 : pre ++ (encodeRecords pre.length (r :: List.map Prod.snd rsc) ++ rest)
        = pre ++ (encodeU32 r.dataOff ++ (encodeU32 r.firstChunk ++ (encodeU32 r.sizeOnDisk ++ (encodeU32 r.sizeInPack ++ (r.path ++ 0 :: (padTo4 (pre.length + (encodeRecord r).length) ++ (encodeRecords (recEnd pre.length r) (List.map Prod.snd rsc) ++ rest))))))) := by
      simp [encodeRecords, encodeRecord, List.append_assoc]
    rw [e1]
    have h1 : readU32 (pre ++ (encodeU32 r.dataOff ++ (encodeU32 r.firstChunk ++ (encodeU32 r.sizeOnDisk ++ (encodeU32 r.sizeInPack ++ (r.path ++ 0 :: (padTo4 (pre.length + (encodeRecord r).length) ++ (encodeRecords (recEnd pre.length r) (List.map Prod.snd rsc) ++ rest)))))))) pre.length = some (r.dataOff, pre.length + 4) :=
      readU32_encode pre r.dataOff _ hb1
    have e2 : (pre ++ (encodeU32 r.dataOff ++ (encodeU32 r.firstChunk ++ (encodeU32 r.sizeOnDisk ++ (encodeU32 r.sizeInPack ++ (r.path ++ 0 :: (padTo4 (pre.length + (encodeRecord r).length) ++ (encodeRecords (recEnd pre.length r) (List.map Prod.snd rsc) ++ rest)))))))) = (pre ++ encodeU32 r.dataOff) ++ (encodeU32 r.firstChunk ++ (encodeU32 r.sizeOnDisk ++ (encodeU32 r.sizeInPack ++ (r.path ++ 0 :: (padTo4 (pre.length + (encodeRecord r).length) ++ (encodeRecords (recEnd pre.length r) (List.map Prod.snd rsc) ++ rest)))))) := by
      simp [List.append_assoc]
    have h2 : readU32 (pre ++ (encodeU32 r.dataOff ++ (encodeU32 r.firstChunk ++ (encodeU32 r.sizeOnDisk ++ (encodeU32 r.sizeInPack ++ (r.path ++ 0 :: (padTo4 (pre.length + (encodeRecord r).length) ++ (encodeRecords (recEnd pre.length r) (List.map Prod.snd rsc) ++ rest)))))))) (pre.length + 4) = some (r.firstChunk, pre.length + 8) := by
      have h := readU32_encode (pre ++ encodeU32 r.dataOff) r.firstChunk (encodeU32 r.sizeOnDisk ++ (encodeU32 r.sizeInPack ++ (r.path ++ 0 :: (padTo4 (pre.length + (encodeRecord r).length) ++ (encodeRecords (recEnd pre.length r) (List.map Prod.snd rsc) ++ rest))))) hb2
      rw [← e2] at h
      rw [(by simp [encodeU32] : (pre ++ encodeU32 r.dataOff).length = pre.length + 4)] at h
      exact h
    have e3 : (pre ++ (encodeU32 r.dataOff ++ (encodeU32 r.firstChunk ++ (encodeU32 r.sizeOnDisk ++ (encodeU32 r.sizeInPack ++ (r.path ++ 0 :: (padTo4 (pre.length + (encodeRecord r).length) ++ (encodeRecords (recEnd pre.length r) (List.map Prod.snd rsc) ++ rest)))))))) = (pre ++ encodeU32 r.dataOff ++ encodeU32 r.firstChunk) ++ (encodeU32 r.sizeOnDisk ++ (encodeU32 r.sizeInPack ++ (r.path ++ 0 :: (padTo4 (pre.length + (encodeRecord r).length) ++ (encodeRecords (recEnd pre.length r) (List.map Prod.snd rsc) ++ rest))))) := by
      simp [List.append_assoc]
    have h3 : readU32 (pre ++ (encodeU32 r.dataOff ++ (encodeU32 r.firstChunk ++ (encodeU32 r.sizeOnDisk ++ (encodeU32 r.sizeInPack ++ (r.path ++ 0 :: (padTo4 (pre.length + (encodeRecord r).length) ++ (encodeRecords (recEnd pre.length r) (List.map Prod.snd rsc) ++ rest)))))))) (pre.length + 8) = some (r.sizeOnDisk, pre.length + 12) := by
      have h := readU32_encode (pre ++ encodeU32 r.dataOff ++ encodeU32 r.firstChunk) r.sizeOnDisk (encodeU32 r.sizeInPack ++ (r.path ++ 0 :: (padTo4 (pre.length + (encodeRecord r).length) ++ (encodeRecords (recEnd pre.length r) (List.map Prod.snd rsc) ++ rest)))) hb3
      rw [← e3] at h
      rw [(by simp [encodeU32] : (pre ++ encodeU32 r.dataOff ++ encodeU32 r.firstChunk).length = pre.length + 8)] at h
      exact h
    have e4 : (pre ++ (encodeU32 r.dataOff ++ (encodeU32 r.firstChunk ++ (encodeU32 r.sizeOnDisk ++ (encodeU32 r.sizeInPack ++ (r.path ++ 0 :: (padTo4 (pre.length + (encodeRecord r).length) ++ (encodeRecords (recEnd pre.length r) (List.map Prod.snd rsc) ++ rest)))))))) = (pre ++ encodeU32 r.dataOff ++ encodeU32 r.firstChunk ++ encodeU32 r.sizeOnDisk) ++ (encodeU32 r.sizeInPack ++ (r.path ++ 0 :: (padTo4 (pre.length + (encodeRecord r).length) ++ (encodeRecords (recEnd pre.length r) (List.map Prod.snd rsc) ++ rest)))) := by
      simp [List.append_assoc]
    have h4 : readU32 (pre ++ (encodeU32 r.dataOff ++ (encodeU32 r.firstChunk ++ (encodeU32 r.sizeOnDisk ++ (encodeU32 r.sizeInPack ++ (r.path ++ 0 :: (padTo4 (pre.length + (encodeRecord r).length) ++ (encodeRecords (recEnd pre.length r) (List.map Prod.snd rsc) ++ rest)))))))) (pre.length + 12) = some (r.sizeInPack, pre.length + 16) := by
      have h := readU32_encode (pre ++ encodeU32 r.dataOff ++ encodeU32 r.firstChunk ++ encodeU32 r.sizeOnDisk) r.sizeInPack (r.path ++ 0 :: (padTo4 (pre.length + (encodeRecord r).length) ++ (encodeRecords (recEnd pre.length r) (List.map Prod.snd rsc) ++ rest))) hb4
      rw [← e4] at h
      rw [(by simp [encodeU32] : (pre ++ encodeU32 r.dataOff ++ encodeU32 r.firstChunk ++ encodeU32 r.sizeOnDisk).length = pre.length + 12)] at h
      exact h
    have e5 : (pre ++ (encodeU32 r.dataOff ++ (encodeU32 r.firstChunk ++ (encodeU32 r.sizeOnDisk ++ (encodeU32 r.sizeInPack ++ (r.path ++ 0 :: (padTo4 (pre.length + (encodeRecord r).length) ++ (encodeRecords (recEnd pre.length r) (List.map Prod.snd rsc) ++ rest)))))))) = (pre ++ encodeU32 r.dataOff ++ encodeU32 r.firstChunk ++ encodeU32 r.sizeOnDisk ++ encodeU32 r.sizeInPack) ++ (r.path ++ 0 :: (padTo4 (pre.length + (encodeRecord r).length) ++ (encodeRecords (recEnd pre.length r) (List.map Prod.snd rsc) ++ rest))) := by
      simp [List.append_assoc]
    have h5 : getCStr (pre ++ (encodeU32 r.dataOff ++ (encodeU32 r.firstChunk ++ (encodeU32 r.sizeOnDisk ++ (encodeU32 r.sizeInPack ++ (r.path ++ 0 :: (padTo4 (pre.length + (encodeRecord r).length) ++ (encodeRecords (recEnd pre.length r) (List.map Prod.snd rsc) ++ rest)))))))) (pre.length + 16)
        = some (r.path, pre.length + 16 + r.path.length + 1) := by
      have h := getCStr_encode r.path (pre ++ encodeU32 r.dataOff ++ encodeU32 r.firstChunk ++ encodeU32 r.sizeOnDisk ++ encodeU32 r.sizeInPack) (padTo4 (pre.length + (encodeRecord r).length) ++ (encodeRecords (recEnd pre.length r) (List.map Prod.snd rsc) ++ rest)) hrec.path_bytes
      rw [← e5] at h
      rw [(by simp [encodeU32] : (pre ++ encodeU32 r.dataOff ++ encodeU32 r.firstChunk ++ encodeU32 r.sizeOnDisk ++ encodeU32 r.sizeInPack).length = pre.length + 16)] at h
      exact h
    have hchunks : buildChunks cs r.dataOff r.sizeInPack r.firstChunk
        = .ok (mkChunks r.dataOff ((cs.drop r.firstChunk).take n)) :=
      chunk_loop_stays_in_table cs r.dataOff r.sizeInPack r.firstChunk n
        hrec.range_le hrec.sizes_pos (by rw [hrec.sizeInPack_eq]; rfl)
        (by have := hrec.no_overflow; omega) hrec.no_overflow
    have hrl : (encodeRecord r).length = r.path.length + 17 := by
      simp [encodeRecord, encodeU32]
    have halign : alignAt (pre.length + 16 + r.path.length + 1) 4 = recEnd pre.length r := by
      rw [alignAt_eq _ 4 (by norm_num)]
      unfold recEnd
      rw [hrl]
      omega
    have hIH := ih (pre ++ (encodeRecord r ++ padTo4 (pre.length + (encodeRecord r).length)))
      rest (fun p hp => hall p (List.mem_cons_of_mem _ hp))
    have hplen : (pre ++ (encodeRecord r
        ++ padTo4 (pre.length + (encodeRecord r).length))).length = recEnd pre.length r := by
      simp [recEnd, padTo4]
      omega
    rw [hplen] at hIH
    have e6 : (pre ++ (encodeRecord r ++ padTo4 (pre.length + (encodeRecord r).length)))
        ++ (encodeRecords (recEnd pre.length r) (List.map Prod.snd rsc) ++ rest)
        = pre ++ (encodeU32 r.dataOff ++ (encodeU32 r.firstChunk ++ (encodeU32 r.sizeOnDisk ++ (encodeU32 r.sizeInPack ++ (r.path ++ 0 :: (padTo4 (pre.length + (encodeRecord r).length) ++ (encodeRecords (recEnd pre.length r) (List.map Prod.snd rsc) ++ rest))))))) := by
      simp [encodeRecord, List.append_assoc]
    rw [e6] at hIH
    simp only [parseRecords]
    rw [h1]
    dsimp only
    rw [h2]
    dsimp only
    rw [h3]
    dsimp only
    rw [h4]
    dsimp only
    rw [h5]
    dsimp only
    rw [hchunks]
    dsimp only
    rw [halign, hIH]
    dsimp only
    rfl

/-- Parsing a validly encoded archive succeeds and produces exactly the
expected file records (the parser round-trips the spec's §6 layout). -/
theorem pack_open_encode (dsizes counts : List Nat) (d : PackDesc)
    (hv : ValidDesc dsizes counts d) :
    pack_open (encodePack d)
      = .ok ⟨(counts.zip d.records).map (fun p => expectedFile d.chunkSizes p.1 p.2)⟩ := by
  have e1 : encodePack d = encodeU32 EXPECTED_MAGIC ++ (encodeU32 EXPECTED_VERSION ++ (encodeU32 d.records.length ++ (encodeU32 d.fileTableSize ++ (encodeU32 d.chunkSizes.length ++ (encodeTable d.fileOffsets ++ (encodeTable d.chunkSizes ++ (encodeRecords (20 + 4 * d.records.length + 4 * d.chunkSizes.length) d.records))))))) := by
    simp [encodePack, List.append_assoc, hv.offsets_len]
  rw [e1]
  have h1 : readU32 (encodeU32 EXPECTED_MAGIC ++ (encodeU32 EXPECTED_VERSION ++ (encodeU32 d.records.length ++ (encodeU32 d.fileTableSize ++ (encodeU32 d.chunkSizes.length ++ (encodeTable d.fileOffsets ++ (encodeTable d.chunkSizes ++ (encodeRecords (20 + 4 * d.records.length + 4 * d.chunkSizes.length) d.records)))))))) 0 = some (EXPECTED_MAGIC, 4) := by
    have h := readU32_encode [] EXPECTED_MAGIC (encodeU32 EXPECTED_VERSION ++ (encodeU32 d.records.length ++ (encodeU32 d.fileTableSize ++ (encodeU32 d.chunkSizes.length ++ (encodeTable d.fileOffsets ++ (encodeTable d.chunkSizes ++ (encodeRecords (20 + 4 * d.records.length + 4 * d.chunkSizes.length) d.records))))))) (by decide)
    rw [List.nil_append] at h
    exact h
  have h2 : readU32 (encodeU32 EXPECTED_MAGIC ++ (encodeU32 EXPECTED_VERSION ++ (encodeU32 d.records.length ++ (encodeU32 d.fileTableSize ++ (encodeU32 d.chunkSizes.length ++ (encodeTable d.fileOffsets ++ (encodeTable d.chunkSizes ++ (encodeRecords (20 + 4 * d.records.length + 4 * d.chunkSizes.length) d.records)))))))) 4 = some (EXPECTED_VERSION, 8) := by
    have h := readU32_encode (encodeU32 EXPECTED_MAGIC) EXPECTED_VERSION (encodeU32 d.records.length ++ (encodeU32 d.fileTableSize ++ (encodeU32 d.chunkSizes.length ++ (encodeTable d.fileOffsets ++ (encodeTable d.chunkSizes ++ (encodeRecords (20 + 4 * d.records.length + 4 * d.chunkSizes.length) d.records)))))) (by decide)
    rw [(rfl : (encodeU32 EXPECTED_MAGIC).length = 4)] at h
    exact h
  have e3 : (encodeU32 EXPECTED_MAGIC ++ (encodeU32 EXPECTED_VERSION ++ (encodeU32 d.records.length ++ (encodeU32 d.fileTableSize ++ (encodeU32 d.chunkSizes.length ++ (encodeTable d.fileOffsets ++ (encodeTable d.chunkSizes ++ (encodeRecords (20 + 4 * d.records.length + 4 * d.chunkSizes.length) d.records)))))))) = (encodeU32 EXPECTED_MAGIC ++ encodeU32 EXPECTED_VERSION) ++ (encodeU32 d.records.length ++ (encodeU32 d.fileTableSize ++ (encodeU32 d.chunkSizes.length ++ (encodeTable d.fileOffsets ++ (encodeTable d.chunkSizes ++ (encodeRecords (20 + 4 * d.records.length + 4 * d.chunkSizes.length) d.records)))))) := by
    simp [List.append_assoc]
  have h3 : readU32 (encodeU32 EXPECTED_MAGIC ++ (encodeU32 EXPECTED_VERSION ++ (encodeU32 d.records.length ++ (encodeU32 d.fileTableSize ++ (encodeU32 d.chunkSizes.length ++ (encodeTable d.fileOffsets ++ (encodeTable d.chunkSizes ++ (encodeRecords (20 + 4 * d.records.length + 4 * d.chunkSizes.length) d.records)))))))) 8 = some (d.records.length, 12) := by
    have h := readU32_encode (encodeU32 EXPECTED_MAGIC ++ encodeU32 EXPECTED_VERSION) d.records.length (encodeU32 d.fileTableSize ++ (encodeU32 d.chunkSizes.length ++ (encodeTable d.fileOffsets ++ (encodeTable d.chunkSizes ++ (encodeRecords (20 + 4 * d.records.length + 4 * d.chunkSizes.length) d.records))))) hv.numFiles_lt
    rw [← e3] at h
    rw [(rfl : (encodeU32 EXPECTED_MAGIC ++ encodeU32 EXPECTED_VERSION).length = 8)] at h
    exact h
  have e4 : (encodeU32 EXPECTED_MAGIC ++ (encodeU32 EXPECTED_VERSION ++ (encodeU32 d.records.length ++ (encodeU32 d.fileTableSize ++ (encodeU32 d.chunkSizes.length ++ (encodeTable d.fileOffsets ++ (encodeTable d.chunkSizes ++ (encodeRecords (20 + 4 * d.records.length + 4 * d.chunkSizes.length) d.records)))))))) = (encodeU32 EXPECTED_MAGIC ++ encodeU32 EXPECTED_VERSION ++ encodeU32 d.records.length) ++ (encodeU32 d.fileTableSize ++ (encodeU32 d.chunkSizes.length ++ (encodeTable d.fileOffsets ++ (encodeTable d.chunkSizes ++ (encodeRecords (20 + 4 * d.records.length + 4 * d.chunkSizes.length) d.records))))) := by
    simp [List.append_assoc]
  have h4 : readU32 (encodeU32 EXPECTED_MAGIC ++ (encodeU32 EXPECTED_VERSION ++ (encodeU32 d.records.length ++ (encodeU32 d.fileTableSize ++ (encodeU32 d.chunkSizes.length ++ (encodeTable d.fileOffsets ++ (encodeTable d.chunkSizes ++ (encodeRecords (20 + 4 * d.records.length + 4 * d.chunkSizes.length) d.records)))))))) 12 = some (d.fileTableSize, 16) := by
    have h := readU32_encode (encodeU32 EXPECTED_MAGIC ++ encodeU32 EXPECTED_VERSION ++ encodeU32 d.records.length) d.fileTableSize (encodeU32 d.chunkSizes.length ++ (encodeTable d.fileOffsets ++ (encodeTable d.chunkSizes ++ (encodeRecords (20 + 4 * d.records.length + 4 * d.chunkSizes.length) d.records)))) hv.fileTableSize_lt
    rw [← e4] at h
    rw [(by simp [encodeU32] : (encodeU32 EXPECTED_MAGIC ++ encodeU32 EXPECTED_VERSION ++ encodeU32 d.records.length).length = 12)] at h
    exact h
  have e5 : (encodeU32 EXPECTED_MAGIC ++ (encodeU32 EXPECTED_VERSION ++ (encodeU32 d.records.length ++ (encodeU32 d.fileTableSize ++ (encodeU32 d.chunkSizes.length ++ (encodeTable d.fileOffsets ++ (encodeTable d.chunkSizes ++ (encodeRecords (20 + 4 * d.records.length + 4 * d.chunkSizes.length) d.records)))))))) = (encodeU32 EXPECTED_MAGIC ++ encodeU32 EXPECTED_VERSION ++ encodeU32 d.records.length ++ encodeU32 d.fileTableSize) ++ (encodeU32 d.chunkSizes.length ++ (encodeTable d.fileOffsets ++ (encodeTable d.chunkSizes ++ (encodeRecords (20 + 4 * d.records.length + 4 * d.chunkSizes.length) d.records)))) := by
    simp [List.append_assoc]
  have h5 : readU32 (encodeU32 EXPECTED_MAGIC ++ (encodeU32 EXPECTED_VERSION ++ (encodeU32 d.records.length ++ (encodeU32 d.fileTableSize ++ (encodeU32 d.chunkSizes.length ++ (encodeTable d.fileOffsets ++ (encodeTable d.chunkSizes ++ (encodeRecords (20 + 4 * d.records.length + 4 * d.chunkSizes.length) d.records)))))))) 16 = some (d.chunkSizes.length, 20) := by
    have h := readU32_encode (encodeU32 EXPECTED_MAGIC ++ encodeU32 EXPECTED_VERSION ++ encodeU32 d.records.length ++ encodeU32 d.fileTableSize) d.chunkSizes.length (encodeTable d.fileOffsets ++ (encodeTable d.chunkSizes ++ (encodeRecords (20 + 4 * d.records.length + 4 * d.chunkSizes.length) d.records))) hv.numChunks_lt
    rw [← e5] at h
    rw [(by simp [encodeU32] : (encodeU32 EXPECTED_MAGIC ++ encodeU32 EXPECTED_VERSION ++ encodeU32 d.records.length ++ encodeU32 d.fileTableSize).length = 16)] at h
    exact h
  have e6 : (encodeU32 EXPECTED_MAGIC ++ (encodeU32 EXPECTED_VERSION ++ (encodeU32 d.records.length ++ (encodeU32 d.fileTableSize ++ (encodeU32 d.chunkSizes.length ++ (encodeTable d.fileOffsets ++ (encodeTable d.chunkSizes ++ (encodeRecords (20 + 4 * d.records.length + 4 * d.chunkSizes.length) d.records)))))))) = (encodeU32 EXPECTED_MAGIC ++ encodeU32 EXPECTED_VERSION ++ encodeU32 d.records.length ++ encodeU32 d.fileTableSize ++ encodeU32 d.chunkSizes.length) ++ (encodeTable d.fileOffsets ++ (encodeTable d.chunkSizes ++ (encodeRecords (20 + 4 * d.records.length + 4 * d.chunkSizes.length) d.records))) := by
    simp [List.append_assoc]
  have h6 : readTable (encodeU32 EXPECTED_MAGIC ++ (encodeU32 EXPECTED_VERSION ++ (encodeU32 d.records.length ++ (encodeU32 d.fileTableSize ++ (encodeU32 d.chunkSizes.length ++ (encodeTable d.fileOffsets ++ (encodeTable d.chunkSizes ++ (encodeRecords (20 + 4 * d.records.length + 4 * d.chunkSizes.length) d.records)))))))) 20 d.records.length
      = some (d.fileOffsets, 20 + 4 * d.records.length) := by
    have h := readTable_encode d.fileOffsets (encodeU32 EXPECTED_MAGIC ++ encodeU32 EXPECTED_VERSION ++ encodeU32 d.records.length ++ encodeU32 d.fileTableSize ++ encodeU32 d.chunkSizes.length) (encodeTable d.chunkSizes ++ (encodeRecords (20 + 4 * d.records.length + 4 * d.chunkSizes.length) d.records)) hv.offsets_lt
    rw [← e6] at h
    rw [(by simp [encodeU32] : (encodeU32 EXPECTED_MAGIC ++ encodeU32 EXPECTED_VERSION ++ encodeU32 d.records.length ++ encodeU32 d.fileTableSize ++ encodeU32 d.chunkSizes.length).length = 20)] at h
    rw [hv.offsets_len] at h
    exact h
  have e7 : (encodeU32 EXPECTED_MAGIC ++ (encodeU32 EXPECTED_VERSION ++ (encodeU32 d.records.length ++ (encodeU32 d.fileTableSize ++ (encodeU32 d.chunkSizes.length ++ (encodeTable d.fileOffsets ++ (encodeTable d.chunkSizes ++ (encodeRecords (20 + 4 * d.records.length + 4 * d.chunkSizes.length) d.records)))))))) = (encodeU32 EXPECTED_MAGIC ++ encodeU32 EXPECTED_VERSION ++ encodeU32 d.records.length ++ encodeU32 d.fileTableSize ++ encodeU32 d.chunkSizes.length ++ encodeTable d.fileOffsets) ++ (encodeTable d.chunkSizes ++ (encodeRecords (20 + 4 * d.records.length + 4 * d.chunkSizes.length) d.records)) := by
    simp [List.append_assoc]
  have h7 : readTable (encodeU32 EXPECTED_MAGIC ++ (encodeU32 EXPECTED_VERSION ++ (encodeU32 d.records.length ++ (encodeU32 d.fileTableSize ++ (encodeU32 d.chunkSizes.length ++ (encodeTable d.fileOffsets ++ (encodeTable d.chunkSizes ++ (encodeRecords (20 + 4 * d.records.length + 4 * d.chunkSizes.length) d.records)))))))) (20 + 4 * d.records.length) d.chunkSizes.length
      = some (d.chunkSizes, 20 + 4 * d.records.length + 4 * d.chunkSizes.length) := by
    have h := readTable_encode d.chunkSizes (encodeU32 EXPECTED_MAGIC ++ encodeU32 EXPECTED_VERSION ++ encodeU32 d.records.length ++ encodeU32 d.fileTableSize ++ encodeU32 d.chunkSizes.length ++ encodeTable d.fileOffsets) (encodeRecords (20 + 4 * d.records.length + 4 * d.chunkSizes.length) d.records) hv.chunkSizes_lt
    rw [← e7] at h
    rw [(by simp [encodeU32, encodeTable_length, hv.offsets_len]; omega :
      (encodeU32 EXPECTED_MAGIC ++ encodeU32 EXPECTED_VERSION ++ encodeU32 d.records.length ++ encodeU32 d.fileTableSize ++ encodeU32 d.chunkSizes.length ++ encodeTable d.fileOffsets).length = 20 + 4 * d.records.length)] at h
    exact h
  have e8 : (encodeU32 EXPECTED_MAGIC ++ (encodeU32 EXPECTED_VERSION ++ (encodeU32 d.records.length ++ (encodeU32 d.fileTableSize ++ (encodeU32 d.chunkSizes.length ++ (encodeTable d.fileOffsets ++ (encodeTable d.chunkSizes ++ (encodeRecords (20 + 4 * d.records.length + 4 * d.chunkSizes.length) d.records)))))))) = (encodeU32 EXPECTED_MAGIC ++ encodeU32 EXPECTED_VERSION ++ encodeU32 d.records.length ++ encodeU32 d.fileTableSize ++ encodeU32 d.chunkSizes.length ++ encodeTable d.fileOffsets ++ encodeTable d.chunkSizes) ++ (encodeRecords (20 + 4 * d.records.length + 4 * d.chunkSizes.length) d.records ++ []) := by
    simp [List.append_assoc]
  have hsnd : List.map Prod.snd (counts.zip d.records) = d.records :=
    List.map_snd_zip counts d.records (by rw [hv.counts_len])
  have hzlen : (counts.zip d.records).length = d.records.length := by
    rw [List.length_zip, hv.counts_len, Nat.min_self]
  have hIH := parseRecords_encode d.chunkSizes dsizes hv.numChunks_lt
    (counts.zip d.records) (encodeU32 EXPECTED_MAGIC ++ encodeU32 EXPECTED_VERSION ++ encodeU32 d.records.length ++ encodeU32 d.fileTableSize ++ encodeU32 d.chunkSizes.length ++ encodeTable d.fileOffsets ++ encodeTable d.chunkSizes) [] hv.recs
  rw [hsnd, hzlen] at hIH
  rw [(by simp [encodeU32, encodeTable_length, hv.offsets_len]; omega :
    (encodeU32 EXPECTED_MAGIC ++ encodeU32 EXPECTED_VERSION ++ encodeU32 d.records.length ++ encodeU32 d.fileTableSize ++ encodeU32 d.chunkSizes.length ++ encodeTable d.fileOffsets ++ encodeTable d.chunkSizes).length = 20 + 4 * d.records.length + 4 * d.chunkSizes.length)] at hIH
  rw [← e8] at hIH
  simp only [pack_open]
  rw [h1]
  dsimp only
  rw [if_neg (by simp)]
  rw [h2]
  dsimp only
  rw [if_neg (by simp)]
  rw [h3]
  dsimp only
  rw [h4]
  dsimp only
  rw [h5]
  dsimp only
  rw [h6]
  dsimp only
  rw [h7]
  dsimp only
  rw [hIH]

/-- `mkChunks` produces one chunk per size. -/
theorem mkChunks_length (dataOff : Nat) (sizes : List Nat) :
    (mkChunks dataOff sizes).length = sizes.length := by
  induction sizes generalizing dataOff with
  | nil => simp [mkChunks]
  | cons s ss ih => simp [mkChunks, ih]

/-- C4: for every valid archive accepted by `open`, re-deriving each
file's byte length from its chunk list — each file has exactly its
declared number of chunks, and summing the decompressed sizes (`dsizes`
entries) of those chunks in order — equals the file's declared
uncompressed size, the value `File::size` returns (`FileRec.sizeOnDisk`).
Validity and per-chunk decompressed sizes are modelled from the spec
(`ValidDesc`), since the repository has no archive writer and the LZO
codec is an external library. -/
theorem valid_archive_sizes (dsizes counts : List Nat) (d : PackDesc)
    (hv : ValidDesc dsizes counts d) :
    (pack_open (encodePack d)).map
        (fun p => (p.files.map (fun f => f.chunks.length),
                   p.files.map FileRec.sizeOnDisk))
      = .ok (counts,
             (counts.zip d.records).map (fun q => sumRange dsizes q.2.firstChunk q.1)) := by
  rw [pack_open_encode dsizes counts d hv]
  show Except.ok _ = _
  refine congrArg Except.ok (Prod.ext ?_ ?_)
  · show (List.map (fun p => expectedFile d.chunkSizes p.1 p.2) (counts.zip d.records)).map
        (fun f => f.chunks.length) = counts
    rw [List.map_map]
    have hcongr : List.map ((fun f => f.chunks.length)
          ∘ (fun p => expectedFile d.chunkSizes p.1 p.2)) (counts.zip d.records)
        = List.map Prod.fst (counts.zip d.records) := by
      refine List.map_congr_left ?_
      intro p hp
      have hrec := hv.recs p hp
      show (expectedFile d.chunkSizes p.1 p.2).chunks.length = p.1
      simp only [expectedFile]
      rw [mkChunks_length, List.length_take, List.length_drop]
      have := hrec.range_le
      omega
    rw [hcongr]
    exact List.map_fst_zip counts d.records (by rw [hv.counts_len])
  · show (List.map (fun p => expectedFile d.chunkSizes p.1 p.2) (counts.zip d.records)).map
        FileRec.sizeOnDisk
      = (counts.zip d.records).map (fun q => sumRange dsizes q.2.firstChunk q.1)
    rw [List.map_map]
    refine List.map_congr_left ?_
    intro p hp
    have hrec := hv.recs p hp
    show (expectedFile d.chunkSizes p.1 p.2).sizeOnDisk = sumRange dsizes p.2.firstChunk p.1
    simp only [expectedFile]
    exact hrec.sizeOnDisk_eq

/-- Witness for C4: a one-file archive with chunk table `[3, 2]`
(decompressed sizes `[10, 7]`), file size 17 = 10 + 7. -/
theorem valid_archive_sizes_witness :
    (pack_open (encodePack ⟨0, [0], [3, 2], [⟨40, 0, 17, 5, [97]⟩]⟩)).map
        (fun p => (p.files.map (fun f => f.chunks.length),
                   p.files.map FileRec.sizeOnDisk))
      = .ok ([2],
             (([2] : List Nat).zip ([⟨40, 0, 17, 5, [97]⟩] : List FileDescR)).map
               (fun q => sumRange [10, 7] q.2.firstChunk q.1)) := by
  refine valid_archive_sizes [10, 7] [2] ⟨0, [0], [3, 2], [⟨40, 0, 17, 5, [97]⟩]⟩ ?_
  refine ⟨rfl, rfl, by decide, by decide, by decide, by decide, by decide, ?_⟩
  intro p hp
  have hp2 : p = (2, (⟨40, 0, 17, 5, [97]⟩ : FileDescR)) := by
    simpa using hp
  subst hp2
  exact ⟨by decide, by decide, by decide, by decide, by decide, by decide, by decide⟩

/-- The chunk loop's only error outcomes are the table overrun and the
(unreachable) fuel artifact — never a magic or version failure. -/
theorem buildChunksAux_error_shape (cs : List Nat) (dataOff sip : Nat) :
    ∀ fuel idx acc e, buildChunksAux cs dataOff sip fuel idx acc = .error e →
      e = .chunkOverrun ∨ e = .loopFuel := by
  intro fuel
  induction fuel with
  | zero =>
    intro idx acc e h
    simp only [buildChunksAux, Except.error.injEq] at h
    exact Or.inr h.symm
  | succ f ih =>
    intro idx acc e h
    simp only [buildChunksAux] at h
    split at h
    · split at h
      · left
        injection h with h2
        exact h2.symm
      · split at h
        · rename_i e1 heq
          injection h with h2
          rcases ih _ _ _ heq with h3 | h3
          · left; rw [← h2, h3]
          · right; rw [← h2, h3]
        · exact absurd h (by simp)
    · exact absurd h (by simp)

/-- The record-parsing loop's only error outcomes are truncation and the
chunk loop's errors — never a magic or version failure. -/
theorem parseRecords_error_shape (data cs : List Nat) :
    ∀ count pos e, parseRecords data cs pos count = .error e →
      e = .truncated ∨ e = .chunkOverrun ∨ e = .loopFuel := by
  intro count
  induction count with
  | zero =>
    intro pos e h
    simp [parseRecords] at h
  | succ c ih =>
    intro pos e h
    simp only [parseRecords] at h
    split at h
    · left; injection h with h2; exact h2.symm
    · split at h
      · left; injection h with h2; exact h2.symm
      · split at h
        · left; injection h with h2; exact h2.symm
        · split at h
          · left; injection h with h2; exact h2.symm
          · split at h
            · left; injection h with h2; exact h2.symm
            · split at h
              · rename_i e1 heq
                injection h with h2
                rcases buildChunksAux_error_shape cs _ _ _ _ _ _ heq with h3 | h3
                · right; left; rw [← h2, h3]
                · right; right; rw [← h2, h3]
              · split at h
                · rename_i e1 heq
                  injection h with h2
                  rcases ih _ _ heq with h3 | h3 | h3
                  · left; rw [← h2, h3]
                  · right; left; rw [← h2, h3]
                  · right; right; rw [← h2, h3]
                · exact absurd h (by simp)

/-- C5: on an archive of at least 8 bytes, `open` fails with the
`not an archive` error (`badMagic`) iff the first little-endian 32-bit
word differs from 0x4B434150; and when the magic matches, the result
carries an `unsupported version` error iff the second word differs from
0x30000, in which case the offending word itself is the reported value
(`badVersionOf` extracts it; `none` means no version failure).  In every
failure case the `Except.error` result carries no file records. -/
theorem open_magic_version (data : List Nat) (h : 8 ≤ data.length) :
    (pack_open data = .error .badMagic ↔ word32At data 0 ≠ EXPECTED_MAGIC) ∧
    (word32At data 0 = EXPECTED_MAGIC →
      badVersionOf (pack_open data)
        = if word32At data 4 = EXPECTED_VERSION then none
          else some (word32At data 4)) := by
  have h0 : readU32 data 0 = some (word32At data 0, 4) := readU32_inBounds data 0 (by omega)
  have h4 : readU32 data 4 = some (word32At data 4, 8) := readU32_inBounds data 4 (by omega)
  by_cases hm : word32At data 0 = EXPECTED_MAGIC
  · by_cases hv : word32At data 4 = EXPECTED_VERSION
    · have key : ∀ e, pack_open data = .error e →
          (e = .truncated ∨ e = .chunkOverrun ∨ e = .loopFuel) := by
        intro e hx
        simp only [pack_open, h0] at hx
        rw [if_neg (by simp [hm])] at hx
        rw [h4] at hx
        dsimp only at hx
        rw [if_neg (by simp [hv])] at hx
        cases hE8 : readU32 data 8 with
        | none => rw [hE8] at hx; left; injection hx with h2; exact h2.symm
        | some v8 =>
          obtain ⟨nf, p8⟩ := v8
          rw [hE8] at hx
          dsimp only at hx
          cases hE12 : readU32 data p8 with
          | none => rw [hE12] at hx; left; injection hx with h2; exact h2.symm
          | some v12 =>
            obtain ⟨fts, p12⟩ := v12
            rw [hE12] at hx
            dsimp only at hx
            cases hE16 : readU32 data p12 with
            | none => rw [hE16] at hx; left; injection hx with h2; exact h2.symm
            | some v16 =>
              obtain ⟨nc, p16⟩ := v16
              rw [hE16] at hx
              dsimp only at hx
              cases hT1 : readTable data p16 nf with
              | none => rw [hT1] at hx; left; injection hx with h2; exact h2.symm
              | some vT1 =>
                obtain ⟨offs, pA⟩ := vT1
                rw [hT1] at hx
                dsimp only at hx
                cases hT2 : readTable data pA nc with
                | none => rw [hT2] at hx; left; injection hx with h2; exact h2.symm
                | some vT2 =>
                  obtain ⟨cst, pB⟩ := vT2
                  rw [hT2] at hx
                  dsimp only at hx
                  cases hP : parseRecords data cst pB nf with
                  | error e1 =>
                    rw [hP] at hx
                    injection hx with h2
                    rcases parseRecords_error_shape data cst nf pB e1 hP with h3 | h3 | h3
                    · left; rw [← h2, h3]
                    · right; left; rw [← h2, h3]
                    · right; right; rw [← h2, h3]
                  | ok vP =>
                    obtain ⟨files, pend⟩ := vP
                    rw [hP] at hx
                    exact absurd hx (by simp)
      have hno_bm : pack_open data ≠ .error .badMagic := by
        intro hx
        rcases key _ hx with h3 | h3 | h3 <;> simp at h3
      have hbv : badVersionOf (pack_open data) = none := by
        cases hres : pack_open data with
        | error e =>
          rcases key e hres with h3 | h3 | h3 <;> (subst h3; rfl)
        | ok p => rfl
      refine ⟨⟨fun hx => absurd hx hno_bm, fun hx => absurd hm hx⟩, fun _ => ?_⟩
      rw [hbv, if_pos hv]
    · have hopen : pack_open data = .error (.badVersion (word32At data 4)) := by
        simp only [pack_open, h0]
        rw [if_neg (by simp [hm])]
        rw [h4]
        dsimp only
        rw [if_pos hv]
      refine ⟨⟨fun hx => ?_, fun hx => absurd hm hx⟩, fun _ => ?_⟩
      · rw [hopen] at hx
        exact absurd hx (by simp)
      · rw [hopen]
        simp [badVersionOf, hv]
  · have hopen : pack_open data = .error .badMagic := by
      simp only [pack_open, h0]
      rw [if_pos hm]
    exact ⟨⟨fun _ => hm, fun _ => hopen⟩, fun hx => absurd hx hm⟩

/-- Witness for C5: eight bytes whose first word is not the magic, so
`open` reports `badMagic`. -/
theorem open_magic_version_witness :
    (pack_open [9, 8, 7, 6, 5, 4, 3, 2] = .error .badMagic
      ↔ word32At [9, 8, 7, 6, 5, 4, 3, 2] 0 ≠ EXPECTED_MAGIC) ∧
    (word32At [9, 8, 7, 6, 5, 4, 3, 2] 0 = EXPECTED_MAGIC →
      badVersionOf (pack_open [9, 8, 7, 6, 5, 4, 3, 2])
        = if word32At [9, 8, 7, 6, 5, 4, 3, 2] 4 = EXPECTED_VERSION then none
          else some (word32At [9, 8, 7, 6, 5, 4, 3, 2] 4)) :=
  open_magic_version [9, 8, 7, 6, 5, 4, 3, 2] (by decide)
